import Mathlib

/-!
# Verification of the i18next-mcp-server translation core

Shallow embedding of the repository's translation-file logic:

* `src/management/key-manager.ts` (`KeyManager`): `addKey`, `renameKey`,
  `syncKeys`, `checkKeyConflicts`, `getNestedValue`, `setNestedValue`,
  `deleteNestedValue`, `cleanupEmptyObjects`, `getAllKeys`;
* `src/core/file-manager.ts` (`FileManager`): `loadTranslationFile`,
  `saveTranslationFile`, `sortObjectKeys`;
* `src/core/config.ts` (`HealthChecker`): `performHealthCheck`,
  `performCrossLanguageAnalysis`, `calculateQualityScore`,
  `calculateOverallScore`.

JavaScript runtime values that can appear in a translation document are
modelled by the mutual inductive type `Json` below.  Two constructors model
artefacts of the JavaScript object model that plain parsed JSON never
contains but the code can produce at run time: `undef` (the value
`undefined`, e.g. assigned by `syncKeys` when a copied value is
unresolvable) and array `props` (string-keyed properties that `current[key]
= value` attaches to an array object; `JSON.stringify` drops them).  `hole`
models an array hole as produced by `delete arr[i]`.  Prototype-chain
lookups (`"toString" in {}` and the like) are not modelled: property reads
and `in`-tests are own-property only, which agrees with the code's
behaviour on every input whose keys are ordinary translation keys.
-/

set_option maxHeartbeats 1000000

namespace I18nMcp

mutual

/-- A JavaScript runtime value as stored in a translation document. -/
inductive Json where
  | str (s : String)
  | num (n : Int)
  | bool (b : Bool)
  | null
  | undef
  | hole
  | arr (elems : JsonList) (props : JsonFields)
  | obj (fields : JsonFields)
  deriving DecidableEq, Repr

/-- The elements of a JavaScript array. -/
inductive JsonList where
  | nil
  | cons (hd : Json) (tl : JsonList)
  deriving DecidableEq, Repr

/-- The own enumerable properties of a JavaScript object, in insertion
order, as `Object.entries` enumerates them. -/
inductive JsonFields where
  | nil
  | cons (key : String) (val : Json) (tl : JsonFields)
  deriving DecidableEq, Repr

end

namespace JsonFields

/-- First-match lookup of a key, as `obj[key]` reads an own property. -/
def lookup : JsonFields → String → Option Json
  | .nil, _ => none
  | .cons k v tl, key => if k = key then some v else lookup tl key

/-- Does the object have the key as an own property (`key in obj`)? -/
def hasKey : JsonFields → String → Bool
  | .nil, _ => false
  | .cons k _ tl, key => k = key || hasKey tl key

/-- `obj[key] = value`: replace in place when the key exists, else append,
matching JavaScript property-insertion order. -/
def setField : JsonFields → String → Json → JsonFields
  | .nil, key, v => .cons key v .nil
  | .cons k w tl, key, v =>
      if k = key then .cons k v tl else .cons k w (setField tl key v)

/-- `delete obj[key]`: remove the property, keeping the order of the rest. -/
def removeField : JsonFields → String → JsonFields
  | .nil, _ => .nil
  | .cons k w tl, key =>
      if k = key then tl else .cons k w (removeField tl key)

/-- The key list in insertion order (`Object.keys`). -/
def keys : JsonFields → List String
  | .nil => []
  | .cons k _ tl => k :: keys tl

/-- Append two field lists. -/
def append : JsonFields → JsonFields → JsonFields
  | .nil, gs => gs
  | .cons k v tl, gs => .cons k v (append tl gs)

/-- Number of fields. -/
def length : JsonFields → Nat
  | .nil => 0
  | .cons _ _ tl => length tl + 1

end JsonFields

namespace JsonList

/-- Zero-based element read, `arr[i]`. -/
def get? : JsonList → Nat → Option Json
  | .nil, _ => none
  | .cons h _, 0 => some h
  | .cons _ tl, n + 1 => get? tl n

/-- Replace the element at an index, if it is in range. -/
def set : JsonList → Nat → Json → JsonList
  | .nil, _, _ => .nil
  | .cons _ tl, 0, v => .cons v tl
  | .cons h tl, n + 1, v => .cons h (set tl n v)

/-- Number of elements, `arr.length`. -/
def length : JsonList → Nat
  | .nil => 0
  | .cons _ tl => length tl + 1

/-- Append one element at the end. -/
def push : JsonList → Json → JsonList
  | .nil, v => .cons v .nil
  | .cons h tl, v => .cons h (push tl v)

/-- Append `n` holes at the end (sparse-array padding). -/
def padHoles : JsonList → Nat → JsonList
  | l, 0 => l
  | l, n + 1 => padHoles (push l .hole) n

/-- Index list of the non-hole elements (`Object.keys` of an array lists
the indices of present elements only). -/
def presentIndices (l : JsonList) : List String :=
  go l 0
where
  go : JsonList → Nat → List String
    | .nil, _ => []
    | .cons .hole tl, i => go tl (i + 1)
    | .cons _ tl, i => toString i :: go tl (i + 1)

end JsonList

namespace Json

/-- `typeof v === 'object'`: true for plain objects, arrays and `null`. -/
def typeofObject : Json → Bool
  | .obj _ => true
  | .arr _ _ => true
  | .null => true
  | _ => false

/-- JavaScript truthiness of a value. A hole is only ever read back as
`undefined`, hence falsy. -/
def truthy : Json → Bool
  | .str s => s ≠ ""
  | .num n => n ≠ 0
  | .bool b => b
  | .null => false
  | .undef => false
  | .hole => false
  | .arr _ _ => true
  | .obj _ => true

/-- The value of a decimal digit character (codepoints 48–57). -/
def digitVal (c : Char) : Option Nat :=
  if 48 ≤ c.toNat && c.toNat ≤ 57 then some (c.toNat - 48) else none

/-- Parse the remaining digits of a decimal numeral. -/
def parseDigits : List Char → Nat → Option Nat
  | [], acc => some acc
  | c :: cs, acc =>
      match digitVal c with
      | some d => parseDigits cs (acc * 10 + d)
      | none => none

/-- The canonical array-index reading of a property key: `some n` when
the key is the decimal numeral of `n` with no sign and no leading zeros
(JavaScript also caps indices at `2^32 - 2`, far beyond any translation
document; the cap is not modelled). -/
def arrayIndex? (key : String) : Option Nat :=
  match key.data with
  | [] => none
  | [c] => digitVal c
  | c :: cs =>
      if c = '0' then none
      else
        match digitVal c with
        | some d => parseDigits cs d
        | none => none

/-- `current[key]` as an own-property read.  On an array it reads an
element (a hole reads as `undefined`), `length`, or a string-keyed
property; on a plain object it reads a field.  Reads on primitives return
`undefined` here (real JavaScript boxes the primitive; every use in the
embedded code immediately discards such a read with a `typeof` test, so
the observable behaviour agrees). -/
def getProp : Json → String → Option Json
  | .obj fields, key => fields.lookup key
  | .arr elems props, key =>
      match arrayIndex? key with
      | some n =>
          match elems.get? n with
          | some .hole => none
          | o => o
      | none =>
          if key = "length" then some (.num elems.length) else props.lookup key
  | _, _ => none

/-- `key in current` as an own-property test (prototype chain not
modelled).  Only ever applied to objects and arrays by the embedded code. -/
def hasProp : Json → String → Bool
  | .obj fields, key => fields.hasKey key
  | .arr elems props, key =>
      (match arrayIndex? key with
       | some n => match elems.get? n with
                   | some .hole => false
                   | some _ => true
                   | none => false
       | none => false)
      || key = "length" || props.hasKey key
  | _, _ => false

/-- `current[key] = v`.  On a plain object: replace in place or append.
On an array: a canonical index within the length replaces the element, the
next index appends, a larger index pads with holes first (JavaScript's
sparse extension), assigning `length` a number resizes the array (larger
lengths pad with holes; a non-numeric `length` throws a `RangeError` in
JavaScript and is modelled as no change — the embedded code never assigns
`length`), and any other key becomes a string-keyed array property.
Assignment on primitives is a silent JavaScript no-op (non-strict) and is
never reached by the embedded code; it is modelled as no change. -/
def setProp : Json → String → Json → Json
  | .obj fields, key, v => .obj (fields.setField key v)
  | .arr elems props, key, v =>
      match arrayIndex? key with
      | some n =>
          if n < elems.length then .arr (elems.set n v) props
          else if n = elems.length then .arr (elems.push v) props
          else .arr ((elems.padHoles (n - elems.length)).push v) props
      | none =>
          if key = "length" then
            match v with
            | .num m =>
                if m < 0 then .arr elems props
                else .arr (resizeTo elems m.toNat) props
            | _ => .arr elems props
          else .arr elems (props.setField key v)
  | j, _, _ => j
where
  /-- Resize an element list to an exact length, truncating or padding
  with holes. -/
  resizeTo (l : JsonList) (n : Nat) : JsonList :=
    match l, n with
    | _, 0 => .nil
    | .nil, m + 1 => .cons .hole (resizeTo .nil m)
    | .cons h tl, m + 1 => .cons h (resizeTo tl m)

/-- `Object.keys(v)`: field keys of an object in insertion order; for an
array the indices of present (non-hole) elements followed by string-keyed
property names.  Used by `cleanupEmptyObjects` for its emptiness test. -/
def objectKeys : Json → List String
  | .obj fields => fields.keys
  | .arr elems props => elems.presentIndices ++ props.keys
  | _ => []

/-- `delete current[key]`.  Deleting from `null`/`undefined` throws a
`TypeError`; deleting an array element leaves a hole; `length` is
non-configurable, so deleting it throws; deleting a missing property is a
successful no-op. -/
def delProp : Json → String → Except String Json
  | .obj fields, key => .ok (.obj (fields.removeField key))
  | .arr elems props, key =>
      match arrayIndex? key with
      | some n =>
          if n < elems.length then .ok (.arr (elems.set n .hole) props)
          else .ok (.arr elems props)
      | none =>
          if key = "length" then .error "TypeError: cannot delete length"
          else .ok (.arr elems (props.removeField key))
  | .null, _ => .error "TypeError: cannot convert null to object"
  | .undef, _ => .error "TypeError: cannot convert undefined to object"
  | j, _ => .ok j

end Json

/-! ## Dot-splitting of key paths

`path.split('.')` of JavaScript: the result always has one more part than
the number of dots; splitting the empty string gives `[""]`. -/

/-- `split('.')` on a character list. -/
def splitDotChars : List Char → List (List Char)
  | [] => [[]]
  | c :: rest =>
      if c = '.' then [] :: splitDotChars rest
      else
        match splitDotChars rest with
        | [] => [[c]]
        | s :: ss => (c :: s) :: ss

/-- `path.split('.')`, as the key-manager uses it. -/
def splitDot (s : String) : List String :=
  (splitDotChars s.data).map fun cs => ⟨cs⟩

/-! ## Deep cloning

`JSON.parse(JSON.stringify(x))`, the deep-clone idiom used by
`setNestedValue` and `deleteNestedValue`.  Serialisation drops
`undefined`-valued object properties and all string-keyed array
properties, and turns array holes and `undefined` array elements into
`null`.  The idiom is only ever applied to a parsed translation document
(a plain object), for which it is the identity. -/

mutual

/-- Deep clone through a `JSON.stringify`/`JSON.parse` round trip. -/
def deepClone : Json → Json
  | .str s => .str s
  | .num n => .num n
  | .bool b => .bool b
  | .null => .null
  | .undef => .null
  | .hole => .null
  | .arr elems _ => .arr (cloneElems elems) .nil
  | .obj fields => .obj (cloneFields fields)

/-- Clone array elements; holes and `undefined` serialise as `null`. -/
def cloneElems : JsonList → JsonList
  | .nil => .nil
  | .cons h tl => .cons (deepClone h) (cloneElems tl)

/-- Clone object fields; `undefined`-valued properties are dropped by
`JSON.stringify`. -/
def cloneFields : JsonFields → JsonFields
  | .nil => .nil
  | .cons k v tl =>
      if v = .undef then cloneFields tl
      else .cons k (deepClone v) (cloneFields tl)

end

/-! ## `KeyManager.getNestedValue` -/

/-- One step of the reduce in `getNestedValue`:
`current && typeof current === 'object' ? current[key] : undefined`. -/
def getStep (cur : Option Json) (key : String) : Option Json :=
  match cur with
  | some c => if c.truthy && c.typeofObject then c.getProp key else none
  | none => none

/-- `getNestedValue(obj, path)`: reduce `getStep` over the dot-split
segments, starting from the document itself.  `none` models the JavaScript
result `undefined`. -/
def getNestedValue (j : Json) (path : String) : Option Json :=
  (splitDot path).foldl getStep (some j)

/-- The `x !== undefined` test applied to a property-read result: a
missing property and a stored `undefined` value both read as
`undefined`. -/
def isDefined : Option Json → Bool
  | none => false
  | some .undef => false
  | some _ => true

/-! ## `KeyManager.setNestedValue` -/

/-- The descent loop of `setNestedValue` on the already-cloned document.
At each intermediate segment, if the slot is missing, not of `typeof
'object'`, or `null`, it is overwritten with `{}` (so an existing plain
object — or an existing array, which is also `typeof 'object'` and
non-`null` — is descended into); the final segment is a plain property
assignment. -/
def setWalk : Json → List String → Json → Json
  | cur, [], _ => cur
  | cur, [k], v => cur.setProp k v
  | cur, k :: rest, v =>
      match cur.getProp k with
      | some (.obj fs) => cur.setProp k (setWalk (.obj fs) rest v)
      | some (.arr es ps) => cur.setProp k (setWalk (.arr es ps) rest v)
      | _ => cur.setProp k (setWalk (.obj .nil) rest v)

/-- `setNestedValue(obj, path, value)`: deep clone, then walk and assign.
The input document itself is never mutated (the clone is taken before any
assignment), which the purity of this embedding makes implicit. -/
def setNestedValue (j : Json) (path : String) (value : Json) : Json :=
  setWalk (deepClone j) (splitDot path) value

/-! ## `KeyManager.deleteNestedValue` and `cleanupEmptyObjects` -/

/-- Is the value a plain object or an array (the values the `in` operator
accepts without throwing)? -/
def Json.isObjOrArr : Json → Bool
  | .obj _ => true
  | .arr _ _ => true
  | _ => false

/-- `typeof o === 'object'` applied to a property-read result (`typeof
undefined` is not `'object'`). -/
def typeofOptObject : Option Json → Bool
  | some c => c.typeofObject
  | none => false

/-- The locate-and-delete loop of `deleteNestedValue` on the cloned
document.  The boolean records whether the final `delete` was reached
(`false` = the walk returned early, leaving the document unchanged and
skipping the cleanup).  The walk checks `!(key in current) || typeof
current[key] !== 'object'` — with no `null` test, so it happily steps
*into* a `null` slot, and the next `in` test or the final `delete` then
throws a `TypeError`, modelled as `Except.error`. -/
def delWalk : Json → List String → Except String (Bool × Json)
  | cur, [] => .ok (false, cur)
  | cur, [k] =>
      match cur.delProp k with
      | .ok cur' => .ok (true, cur')
      | .error e => .error e
  | cur, k :: rest =>
      if cur.isObjOrArr then
        if cur.hasProp k && typeofOptObject (cur.getProp k) then
          match cur.getProp k with
          | some child =>
              match delWalk child rest with
              | .ok (b, child') => .ok (b, cur.setProp k child')
              | .error e => .error e
          | none => .ok (false, cur)
        else .ok (false, cur)
      else .error "TypeError: cannot use in operator"

/-- The walk of `cleanupEmptyObjects`: descend along all but the last
segment (returning unchanged at the first slot that is not `typeof
'object'`), then delete the object at the last segment when it is a
non-`null` object value with zero `Object.keys`.  Reading a property of a
`null` slot that an earlier `typeof` test let through throws. -/
def cleanupWalk : Json → List String → Except String (Bool × Json)
  | cur, [] => .ok (false, cur)
  | cur, [k] =>
      match cur with
      | .null => .error "TypeError: cannot read properties of null"
      | .undef => .error "TypeError: cannot read properties of undefined"
      | _ =>
          match cur.getProp k with
          | some t =>
              if t.typeofObject && !(t == Json.null) && t.objectKeys.length == 0 then
                match cur.delProp k with
                | .ok cur' => .ok (true, cur')
                | .error e => .error e
              else .ok (false, cur)
          | none => .ok (false, cur)
  | cur, k :: rest =>
      match cur with
      | .null => .error "TypeError: cannot read properties of null"
      | .undef => .error "TypeError: cannot read properties of undefined"
      | _ =>
          match cur.getProp k with
          | some child =>
              if child.typeofObject then
                match cleanupWalk child rest with
                | .ok (b, child') => .ok (b, cur.setProp k child')
                | .error e => .error e
              else .ok (false, cur)
          | none => .ok (false, cur)

/-- The recursion of `cleanupEmptyObjects`, driven by a step counter
that always equals the current path length (each recursive call drops
the last segment, so the counter never runs out early): delete the
object at the end of the path when it has become empty, then recurse on
the shortened path; stop as soon as nothing was deleted. -/
def cleanupSteps : Json → List String → Nat → Except String Json
  | root, _, 0 => .ok root
  | root, path, n + 1 =>
      match path with
      | [] => .ok root
      | p :: ps =>
          match cleanupWalk root (p :: ps) with
          | .ok (true, root') => cleanupSteps root' (List.dropLast (p :: ps)) n
          | .ok (false, root') => .ok root'
          | .error e => .error e

/-- `cleanupEmptyObjects(obj, path)`. -/
def cleanupEmptyObjects (root : Json) (path : List String) : Except String Json :=
  cleanupSteps root path path.length

/-- `deleteNestedValue(obj, path)`: deep clone, locate and delete the
leaf (an early return during the walk skips both the delete and the
cleanup), then prune empty parents along the path. -/
def deleteNestedValue (j : Json) (path : String) : Except String Json :=
  let keys := splitDot path
  match delWalk (deepClone j) keys with
  | .ok (true, r) => cleanupEmptyObjects r keys.dropLast
  | .ok (false, r) => .ok r
  | .error e => .error e

/-! ## `KeyManager.getAllKeys` -/

mutual

/-- `getAllKeys(obj, prefix)`: flattened dot paths of all leaves.  Only
non-`null`, non-array objects are descended into; everything else —
including arrays and `null` — is a leaf. -/
def getAllKeys : Json → String → List String
  | .obj fields, pfx => getAllKeysFields fields pfx
  | _, _ => []

/-- The per-field loop of `getAllKeys` over `Object.entries`: a
non-`null`, non-array object value contributes its own flattened keys
(through `getAllKeys`), anything else contributes its full key as a
leaf. -/
def getAllKeysFields : JsonFields → String → List String
  | .nil, _ => []
  | .cons k v tl, pfx =>
      let fullKey := if pfx = "" then k else pfx ++ "." ++ k
      (match v with
       | .obj _ => getAllKeys v fullKey
       | _ => [fullKey]) ++ getAllKeysFields tl pfx

end

/-! ## `FileManager.sortObjectKeys` -/

/-- Lexicographic string comparison on scalar values, the default
`Array.prototype.sort` comparator (which compares UTF-16 code units;
the two agree on every key outside the astral planes). -/
def strLe (a b : String) : Bool :=
  go a.data b.data
where
  go : List Char → List Char → Bool
    | [], _ => true
    | _ :: _, [] => false
    | c :: cs, d :: ds =>
        if c.toNat < d.toNat then true
        else if d.toNat < c.toNat then false
        else go cs ds

/-- Insert a field into a key-sorted field list, keeping it sorted. -/
def insertSorted (k : String) (v : Json) : JsonFields → JsonFields
  | .nil => .cons k v .nil
  | .cons k' v' tl =>
      if strLe k k' then .cons k v (.cons k' v' tl)
      else .cons k' v' (insertSorted k v tl)

mutual

/-- `sortObjectKeys(obj)`: rebuild a plain object with its keys sorted at
every nesting level; non-objects (and `null`) are returned unchanged.
The source would also treat a top-level *array* as a record of its
indices, but it is only ever called on parsed translation documents
(plain objects). -/
def sortObjectKeys : Json → Json
  | .obj fields => .obj (sortFields fields)
  | j => j

/-- Sort a field list by key, recursing into plain-object values only:
`sortObjectKeys` sorts objects and returns every other value — including
arrays, which the source's `!Array.isArray` guard keeps out of the
recursion — unchanged. -/
def sortFields : JsonFields → JsonFields
  | .nil => .nil
  | .cons k v tl => insertSorted k (sortObjectKeys v) (sortFields tl)

end

/-! ## The translation store as seen by `KeyManager`

`KeyManager` talks to `FileManager.loadTranslationFile` /
`saveTranslationFile`.  A save writes the recursively key-sorted content
to disk and replaces the cache entry with that same sorted content, so a
subsequent load returns it; a load of a pair that has no file throws
(modelled as `none`).  The store is therefore abstracted as a map from
`(language, namespace)` to document content. -/

/-- Configuration fields the key manager and health checker consume. -/
structure I18nConfig where
  languages : List String
  namespaces : List String
  defaultLanguage : String

/-- The translation store: `(language, namespace)` pairs with their
current document content. -/
abbrev TState := List ((String × String) × Json)

/-- `fileManager.loadTranslationFile(language, namespace)`; `none` models
the thrown error for a pair with no file. -/
def loadTF : TState → String → String → Option Json
  | [], _, _ => none
  | (k, content) :: tl, lang, ns =>
      if k = (lang, ns) then some content else loadTF tl lang ns

/-- `fileManager.saveTranslationFile(language, namespace, content)`:
writes `sortObjectKeys(content)` and replaces (or creates) the entry. -/
def saveTF : TState → String → String → Json → TState
  | [], lang, ns, content => [((lang, ns), sortObjectKeys content)]
  | (k, c) :: tl, lang, ns, content =>
      if k = (lang, ns) then (k, sortObjectKeys content) :: tl
      else (k, c) :: saveTF tl lang ns content

/-! ## `KeyManager` operation results

`timestamp` fields (wall-clock ISO strings) are not modelled. -/

/-- A `KeyConflict` entry; `ns` models the `namespace` field (a reserved
word in Lean).  `existingValue` has TypeScript type `unknown`. -/
structure KeyConflict where
  key : String
  language : String
  ns : String
  existingValue : Option Json
  deriving DecidableEq, Repr

/-- An entry of `OperationResult.operations`; `ns` models `namespace`. -/
structure OpEntry where
  type : String
  key : String
  newKey : Option String := none
  language : String
  ns : String
  value : Option Json := none
  deriving DecidableEq, Repr

/-- The result record every key operation returns. -/
structure OperationResult where
  success : Bool
  operations : List OpEntry
  conflicts : List KeyConflict
  errors : List String
  deriving DecidableEq, Repr

/-- The JavaScript `a || b` fallback on an optional string: `undefined`
and the empty string are falsy. -/
def jsOrString (a : Option String) (b : String) : String :=
  match a with
  | some s => if s = "" then b else s
  | none => b

/-- `KeyManager.checkKeyConflicts`: scan every `(language, namespace)`
pair; a pair whose load throws is skipped (`// Ignore errors for conflict
checking`), and a conflict is recorded when `getNestedValue` is not
`undefined` there. -/
def checkKeyConflicts (st : TState) (key : String)
    (languages namespaces : List String) : List KeyConflict :=
  languages.flatMap fun language =>
    namespaces.filterMap fun ns =>
      match loadTF st language ns with
      | some content =>
          if isDefined (getNestedValue content key) then
            some ⟨key, language, ns, getNestedValue content key⟩
          else none
      | none => none

/-- The `KeyAddition` operation payload. -/
structure KeyAddition where
  key : String
  value : Option String := none
  defaultValue : String
  languages : Option (List String) := none
  namespaces : Option (List String) := none
  overwrite : Bool := false

/-- One iteration of `addKey`'s per-pair loop. -/
def addKeyPair (cfg : I18nConfig) (op : KeyAddition)
    (acc : OperationResult × TState) (language ns : String) :
    OperationResult × TState :=
  let res := acc.1
  let st := acc.2
  match loadTF st language ns with
  | none =>
      let msg := s!"Failed to add key \"{op.key}\" to {language}/{ns}: Error"
      ({ res with errors := res.errors ++ [msg], success := false }, st)
  | some content =>
      let v : Json :=
        .str (jsOrString op.value
          (if language = cfg.defaultLanguage then op.defaultValue else ""))
      let st' := saveTF st language ns (setNestedValue content op.key v)
      let entry : OpEntry :=
        { type := "add", key := op.key, language := language, ns := ns,
          value := some (.str (jsOrString op.value op.defaultValue)) }
      ({ res with operations := res.operations ++ [entry] }, st')

/-- `KeyManager.addKey`: pre-flight conflict scan over all targets; with
a conflict and no overwrite permission the whole operation aborts before
any write; otherwise apply to every pair. -/
def addKey (cfg : I18nConfig) (st : TState) (op : KeyAddition) :
    OperationResult × TState :=
  let targetLanguages := op.languages.getD cfg.languages
  let targetNamespaces := op.namespaces.getD cfg.namespaces
  let conflicts := checkKeyConflicts st op.key targetLanguages targetNamespaces
  if conflicts.length > 0 && !op.overwrite then
    ({ success := false, operations := [], conflicts := conflicts, errors := [] }, st)
  else
    (targetLanguages.flatMap fun l => targetNamespaces.map fun n => (l, n)).foldl
      (fun acc p => addKeyPair cfg op acc p.1 p.2)
      ({ success := true, operations := [], conflicts := [], errors := [] }, st)

/-- The `KeyRename` operation payload. -/
structure KeyRename where
  oldKey : String
  newKey : String
  languages : Option (List String) := none
  namespaces : Option (List String) := none
  overwrite : Bool := false

/-- One iteration of `renameKey`'s per-pair loop.  When the old key reads
as `undefined` the pair records an error and `continue`s — without
touching `success`. -/
def renameKeyPair (op : KeyRename) (acc : OperationResult × TState)
    (language ns : String) : OperationResult × TState :=
  let res := acc.1
  let st := acc.2
  match loadTF st language ns with
  | none =>
      let msg :=
        s!"Failed to rename key \"{op.oldKey}\" to \"{op.newKey}\" in {language}/{ns}: Error"
      ({ res with errors := res.errors ++ [msg], success := false }, st)
  | some content =>
      let existingValue := getNestedValue content op.oldKey
      if !(isDefined existingValue) then
        let msg := s!"Key \"{op.oldKey}\" not found in {language}/{ns}"
        ({ res with errors := res.errors ++ [msg] }, st)
      else
        match deleteNestedValue content op.oldKey with
        | .error _ =>
            let msg :=
              s!"Failed to rename key \"{op.oldKey}\" to \"{op.newKey}\" in {language}/{ns}: TypeError"
            ({ res with errors := res.errors ++ [msg], success := false }, st)
        | .ok deleted =>
            let updated := setNestedValue deleted op.newKey (existingValue.getD .undef)
            let st' := saveTF st language ns updated
            let entry : OpEntry :=
              { type := "rename", key := op.oldKey, newKey := some op.newKey,
                language := language, ns := ns, value := existingValue }
            ({ res with operations := res.operations ++ [entry] }, st')

/-- `KeyManager.renameKey`: conflict-check the *new* key exactly like
`addKey`, then per pair read the old value, delete the old path and set
the new path. -/
def renameKey (cfg : I18nConfig) (st : TState) (op : KeyRename) :
    OperationResult × TState :=
  let targetLanguages := op.languages.getD cfg.languages
  let targetNamespaces := op.namespaces.getD cfg.namespaces
  let conflicts := checkKeyConflicts st op.newKey targetLanguages targetNamespaces
  if conflicts.length > 0 && !op.overwrite then
    ({ success := false, operations := [], conflicts := conflicts, errors := [] }, st)
  else
    (targetLanguages.flatMap fun l => targetNamespaces.map fun n => (l, n)).foldl
      (fun acc p => renameKeyPair op acc p.1 p.2)
      ({ success := true, operations := [], conflicts := [], errors := [] }, st)

/-- The inner loop of `syncKeys` for one target namespace: every missing
key is set on `targetFile.content` — the content as loaded *before* the
loop — and the result saved, each save replacing the previous one. -/
def syncMissingKeys (language targetNamespace : String) (sourceFile targetFile : Json)
    (sourceKeys : List String) (copyValues : Bool)
    (acc : OperationResult × TState) : OperationResult × TState :=
  let targetKeys := getAllKeys targetFile ""
  let missingKeys := sourceKeys.filter fun k => !(targetKeys.contains k)
  missingKeys.foldl
    (fun acc key =>
      let res := acc.1
      let st := acc.2
      let valueToSet : Json :=
        if copyValues then (getNestedValue sourceFile key).getD .undef else .str ""
      let updated := setNestedValue targetFile key valueToSet
      let st' := saveTF st language targetNamespace updated
      let entry : OpEntry :=
        { type := "sync", key := key, language := language, ns := targetNamespace,
          value := some valueToSet }
      ({ res with operations := res.operations ++ [entry] }, st'))
    acc

/-- The target loop of `syncKeys`.  A target whose load throws aborts the
whole sync through the outer `catch` (the `if (!targetFile)` guard in the
source is dead code: `loadTranslationFile` never returns a falsy value,
it throws). -/
def syncTargets (language : String) (sourceFile : Json) (sourceKeys : List String)
    (copyValues : Bool) : List String → OperationResult × TState →
    OperationResult × TState
  | [], acc => acc
  | tn :: rest, acc =>
      let res := acc.1
      let st := acc.2
      match loadTF st language tn with
      | none =>
          let errs := res.errors ++ ["Sync operation failed: Error"]
          ({ res with success := false, errors := errs }, st)
      | some targetFile =>
          syncTargets language sourceFile sourceKeys copyValues rest
            (syncMissingKeys language tn sourceFile targetFile sourceKeys copyValues acc)

/-- `KeyManager.syncKeys(sourceNamespace, targetNamespaces, language,
copyValues)`. -/
def syncKeys (st : TState) (sourceNamespace : String)
    (targetNamespaces : List String) (language : String) (copyValues : Bool) :
    OperationResult × TState :=
  let res0 : OperationResult :=
    { success := true, operations := [], conflicts := [], errors := [] }
  match loadTF st language sourceNamespace with
  | none =>
      ({ res0 with success := false, errors := ["Sync operation failed: Error"] }, st)
  | some sourceFile =>
      syncTargets language sourceFile (getAllKeys sourceFile "") copyValues
        targetNamespaces (res0, st)

/-! ## `HealthChecker` (src/core/config.ts)

The six per-file validators (`validateInterpolation`,
`validatePluralization`, `validateTranslationQuality`,
`validateConsistency`, `validateStructure`, `validatePerformance`) do not
affect the claims under check beyond producing *some* issue list per
file, so `performHealthCheck` is parameterised by an arbitrary
`fileIssuesOf` function standing for their combined output on a pair;
everything else — the load phase with its `file_missing` fallback to
`{}`, the per-file reports, the cross-language analysis, the summary —
follows the source. -/

/-- A `ValidationIssue`; only the fields the modelled checks populate are
carried.  `detNamespace`, `detMissingLanguages` and
`detAvailableLanguages` model the `details` payload of
`cross_language_missing_files` issues. -/
structure ValidationIssue where
  type : String
  severity : String
  message : String
  detNamespace : Option String := none
  detMissingLanguages : List String := []
  detAvailableLanguages : List String := []
  deriving DecidableEq, Repr

/-- The `QualityScore` record. -/
structure QualityScore where
  score : Int
  grade : String
  totalKeys : Nat
  errorCount : Nat
  warningCount : Nat
  deriving DecidableEq, Repr

/-- `HealthChecker.calculateQualityScore`: start at 100, subtract 10 per
error and 2 per warning, clamp to `[0, 100]`, then grade by thresholds.
`keys` is the flattened key list of the file (the record built by
`getAllKeysWithDetails`, whose key set is the deduplicated `getAllKeys`
list); only its length is read. -/
def calculateQualityScore (keys : List String) (issues : List ValidationIssue) :
    QualityScore :=
  let totalKeys := keys.length
  let errors := (issues.filter fun i => i.severity == "error").length
  let warnings := (issues.filter fun i => i.severity == "warning").length
  let score : Int := 100 - errors * 10 - warnings * 2
  let score : Int := max 0 (min 100 score)
  let grade : String :=
    if score ≥ 90 then "A"
    else if score ≥ 80 then "B"
    else if score ≥ 70 then "C"
    else if score ≥ 60 then "D"
    else "F"
  ⟨score, grade, totalKeys, errors, warnings⟩

/-- The per-file entry of `HealthCheckResult.files`. -/
structure FileReport where
  keyCount : Nat
  issueCount : Nat
  issues : List ValidationIssue
  qualityScore : QualityScore
  deriving DecidableEq, Repr

/-- The `summary` part of a `HealthCheckResult`. -/
structure HealthSummary where
  totalIssues : Nat
  errors : Nat
  warnings : Nat
  info : Nat
  score : Int
  deriving DecidableEq, Repr

/-- A `HealthCheckResult` (recommendations, which no claim touches, are
not carried). -/
structure HealthCheckResult where
  summary : HealthSummary
  files : List (String × FileReport)
  issues : List ValidationIssue
  deriving DecidableEq, Repr

/-- `Math.round(total / n)` for a non-negative `total` and positive `n`
(every quality score lies in `[0, 100]`): the floor of `(2·total + n)
/ (2·n)`, written with natural division. -/
def jsRoundDiv (total : Int) (n : Nat) : Int :=
  ((2 * total.toNat + n) / (2 * n) : Nat)

/-- `HealthChecker.calculateOverallScore`: the rounded arithmetic mean of
the per-file quality scores, `0` when there are no files. -/
def calculateOverallScore (files : List FileReport) : Int :=
  if files.length = 0 then 0
  else jsRoundDiv (files.map fun f => f.qualityScore.score).sum files.length

/-- The test `translations[lang] && translations[lang][namespace]`
applies to an entry: JavaScript truthiness, with a missing entry reading
as `undefined` (falsy). -/
def truthyOpt : Option Json → Bool
  | some d => d.truthy
  | none => false

/-- `HealthChecker.performCrossLanguageAnalysis`: for each namespace,
filter the languages whose `translations[lang][namespace]` entry is
truthy; when fewer than all requested languages pass, emit one
`cross_language_missing_files` error naming the rest.  (An entry that is
present but a falsy JSON value — such as a document whose entire content
is `null` — fails the filter; a missing entry reads as `undefined` and
also fails.) -/
def performCrossLanguageAnalysis (translations : String → String → Option Json)
    (languages namespaces : List String) : List ValidationIssue :=
  namespaces.filterMap fun ns =>
    let availableLanguages := languages.filter fun lang =>
      truthyOpt (translations lang ns)
    if availableLanguages.length < languages.length then
      let missingLanguages := languages.filter fun lang =>
        !(availableLanguages.contains lang)
      some { type := "cross_language_missing_files", severity := "error",
             message := s!"Namespace \"{ns}\" missing in languages",
             detNamespace := some ns,
             detMissingLanguages := missingLanguages,
             detAvailableLanguages := availableLanguages }
    else none

/-- The `file_missing` issue recorded when a pair's load throws. -/
def fileMissingIssue (language ns : String) : ValidationIssue :=
  { type := "file_missing", severity := "error",
    message := s!"Missing translation file: {language}/{ns}.json" }

/-- Upsert into the `result.files` record (JavaScript object semantics:
assigning an existing key keeps its position). -/
def upsertFile : List (String × FileReport) → String → FileReport →
    List (String × FileReport)
  | [], k, r => [(k, r)]
  | (k', r') :: tl, k, r =>
      if k' = k then (k', r) :: tl else (k', r') :: upsertFile tl k r

/-- `HealthChecker.performHealthCheck` over a disk of loadable documents
(`none` = the load throws): load every requested pair, falling back to
`{}` with a `file_missing` issue; build one report per pair with
`fileIssuesOf` standing for the combined per-file validators; append the
cross-language issues; count severities and compute the overall score. -/
def performHealthCheck (cfg : I18nConfig) (disk : String → String → Option Json)
    (langs? nss? : Option (List String)) (detailed : Bool)
    (fileIssuesOf : String → String → List ValidationIssue) : HealthCheckResult :=
  let targetLanguages := langs?.getD cfg.languages
  let targetNamespaces := nss?.getD cfg.namespaces
  let loadIssues := targetLanguages.flatMap fun l =>
    targetNamespaces.filterMap fun n =>
      match disk l n with
      | some _ => none
      | none => some (fileMissingIssue l n)
  let translations : String → String → Option Json := fun l n =>
    if targetLanguages.contains l && targetNamespaces.contains n then
      some ((disk l n).getD (.obj .nil))
    else none
  let pairs := targetLanguages.flatMap fun l => targetNamespaces.map fun n => (l, n)
  let fileIssues := pairs.flatMap fun p => fileIssuesOf p.1 p.2
  let files := pairs.foldl
    (fun acc p =>
      let content := (translations p.1 p.2).getD (.obj .nil)
      let keys := (getAllKeys content "").eraseDups
      let issues := fileIssuesOf p.1 p.2
      upsertFile acc s!"{p.1}/{p.2}"
        { keyCount := keys.length, issueCount := issues.length,
          issues := if detailed then issues
                    else issues.filter fun i => i.severity == "error",
          qualityScore := calculateQualityScore keys issues })
    []
  let crossLangIssues :=
    performCrossLanguageAnalysis translations targetLanguages targetNamespaces
  let allIssues := loadIssues ++ fileIssues ++ crossLangIssues
  { summary :=
      { totalIssues := allIssues.length,
        errors := (allIssues.filter fun i => i.severity == "error").length,
        warnings := (allIssues.filter fun i => i.severity == "warning").length,
        info := (allIssues.filter fun i => i.severity == "info").length,
        score := calculateOverallScore (files.map fun f => f.2) },
    files := files,
    issues := allIssues }

/-! ## `FileManager.loadTranslationFile`: failure classification (C6)

The load path, line by line: `fs.stat` (throws when the file does not
exist), a cache consultation (taken here on a cold cache), `fs.readFile`
(may throw), `JSON.parse` wrapped so that a parse failure throws
`ValidationError`, and an outer `catch` that re-throws `ValidationError`
and wraps *everything else* — not-found and I/O failures alike — in
`FileSystemError`. -/

/-- What the file system holds for a given path at load time. -/
inductive DiskFileState where
  | statFails
  | readFails
  | invalidJson (raw : String)
  | validJson (content : Json)
  deriving DecidableEq, Repr

/-- The two error classes `loadTranslationFile` can throw:
`ValidationError` (code `VALIDATION_ERROR`) and `FileSystemError` (code
`FILESYSTEM_ERROR`), from `src/types/index.ts`. -/
inductive LoadError where
  | validationError (message : String)
  | fileSystemError (message : String)
  deriving DecidableEq, Repr

/-- `loadTranslationFile` on a cold cache, classifying its outcome. -/
def loadTranslationFileResult (filePath : String) (file : DiskFileState) :
    Except LoadError Json :=
  match file with
  | .statFails => .error (.fileSystemError s!"Failed to load translation file: {filePath}")
  | .readFails => .error (.fileSystemError s!"Failed to load translation file: {filePath}")
  | .invalidJson _ => .error (.validationError s!"Invalid JSON in {filePath}")
  | .validJson content => .ok content

/-- Is the outcome a `ValidationError` (the parse-failure class)? -/
def isParseFailure : Except LoadError Json → Bool
  | .error (.validationError _) => true
  | _ => false

/-- Is the outcome a `FileSystemError`? -/
def isFileSystemFailure : Except LoadError Json → Bool
  | .error (.fileSystemError _) => true
  | _ => false

/-! ## `FileManager` cache aliasing (C7)

To talk about object identity — which a single `Json` value cannot
express — the store is given an explicit heap: addresses are indices into
`heap`, the cache maps a `language:namespace` key to the *address* of the
parsed content object together with the recorded `lastModified` time, and
a load returns an address.  `loadTranslationFile` returns the cached
translation file itself on a cache hit (`return cached`), and on a miss
parses fresh content, stores that very object in the cache and returns
it (`this.cache.set(cacheKey, translationFile); return translationFile`). -/

/-- The file-manager store with an explicit heap of content objects. -/
structure HeapFM where
  heap : List Json
  cache : List (String × Nat × Nat)
  disk : List (String × Json × Nat)
  deriving DecidableEq, Repr

/-- Association-list lookup for the heap model. -/
def assocFind : List (String × α) → String → Option α
  | [], _ => none
  | (k, v) :: tl, key => if k = key then some v else assocFind tl key

/-- `loadTranslationFile` in the heap model: `none` when the load throws
(file absent); otherwise the address of the returned content object and
the store afterwards.  A cache entry at least as new as the file's mtime
is returned as-is — the very address stored in the cache; a fresh parse
allocates a new address, stores it in the cache and returns it. -/
def heapLoad (st : HeapFM) (key : String) : Option (Nat × HeapFM) :=
  match assocFind st.disk key with
  | none => none
  | some (content, mtime) =>
      match assocFind st.cache key with
      | some (addr, lastModified) =>
          if mtime ≤ lastModified then some (addr, st)
          else
            some (st.heap.length,
              { st with heap := st.heap ++ [content],
                        cache := (key, st.heap.length, mtime) :: st.cache })
      | none =>
          some (st.heap.length,
            { st with heap := st.heap ++ [content],
                      cache := (key, st.heap.length, mtime) :: st.cache })

/-- Read the content object at an address. -/
def heapRead (st : HeapFM) (addr : Nat) : Option Json :=
  st.heap.get? addr

/-- A caller mutating, in place, the content object a load handed it. -/
def heapMutate (st : HeapFM) (addr : Nat) (v : Json) : HeapFM :=
  { st with heap := st.heap.set addr v }

/-! ## Flatten/unflatten round trip (spec §8)

The spec's `flatten` is `getAllKeys` paired with the value at each path,
and its `unflatten` starts from `{}` and applies `setNestedValue` for
each pair in order. -/

/-- `flatten(doc)`: the flattened key paths with their values.  On the
paths `getAllKeys` produces for a parsed document every value is defined;
the `.getD .null` default is never consulted there. -/
def flattenDoc (doc : Json) : List (String × Json) :=
  (getAllKeys doc "").map fun k => (k, (getNestedValue doc k).getD .null)

/-- `unflatten(pairs)`: fold `setNestedValue` over the pairs, starting
from the empty document. -/
def unflattenPairs (pairs : List (String × Json)) : Json :=
  pairs.foldl (fun acc p => setNestedValue acc p.1 p.2) (.obj .nil)

/-! ## Structural predicates on documents

`isJsonValue` characterises the values `JSON.parse` can produce: no
`undefined`, no array holes, no string-keyed array properties, and no
duplicate keys in any object.  `dotFreeDoc` says no key on the object
spine contains a dot; `noEmptyObjValues` says no object *value* is empty
(the root may be).  All three are decidable by computation. -/

mutual

/-- Is this a value `JSON.parse` can produce (with unique keys)? -/
def isJsonValue : Json → Bool
  | .str _ => true
  | .num _ => true
  | .bool _ => true
  | .null => true
  | .undef => false
  | .hole => false
  | .arr elems props => isJsonElems elems && props == JsonFields.nil
  | .obj fields => isJsonFields fields

/-- All array elements are parsed-JSON values. -/
def isJsonElems : JsonList → Bool
  | .nil => true
  | .cons h tl => isJsonValue h && isJsonElems tl

/-- All field values are parsed-JSON values and keys are unique. -/
def isJsonFields : JsonFields → Bool
  | .nil => true
  | .cons k v tl => !(tl.hasKey k) && isJsonValue v && isJsonFields tl

end

mutual

/-- No key along the object spine contains a `.` separator. -/
def dotFreeDoc : Json → Bool
  | .obj fields => dotFreeFields fields
  | _ => true

/-- Field-list form of `dotFreeDoc`. -/
def dotFreeFields : JsonFields → Bool
  | .nil => true
  | .cons k v tl => !(k.data.contains '.') && dotFreeDoc v && dotFreeFields tl

end

mutual

/-- No object value anywhere in the document is the empty object (the
root itself may be empty). -/
def noEmptyObjValues : Json → Bool
  | .obj fields => noEmptyFields fields
  | _ => true

/-- Field-list form of `noEmptyObjValues`. -/
def noEmptyFields : JsonFields → Bool
  | .nil => true
  | .cons _ v tl =>
      (match v with
       | .obj fs => !(fs == JsonFields.nil)
       | _ => true) && noEmptyObjValues v && noEmptyFields tl

end

/-! ## Walk-shape predicates

These classify how the imperative descent loops traverse a given
document on a given segment list; the conditional theorems about
`setNestedValue` and `deleteNestedValue` are scoped by them. -/

/-- The `setNestedValue` descent on these segments meets, at every
intermediate slot, either a plain object (descended into) or a missing /
non-object / `null` slot (replaced by a fresh `{}`) — never an existing
array. -/
def objWalkable : Json → List String → Bool
  | _, [] => true
  | _, [_] => true
  | cur, k :: rest =>
      match cur.getProp k with
      | some (.obj fs) => objWalkable (.obj fs) rest
      | some (.arr _ _) => false
      | _ => true

/-- The `deleteNestedValue` walk returns early (missing key or
non-`object` slot at an intermediate segment) before reaching the final
`delete`, without ever stepping into a `null` or an array. -/
def delStopsEarly : Json → List String → Bool
  | _, [] => false
  | _, [_] => false
  | cur, k :: rest =>
      match cur with
      | .obj fields =>
          match fields.lookup k with
          | some (.obj fs) => delStopsEarly (.obj fs) rest
          | some (.arr _ _) => false
          | some .null => false
          | _ => true
      | _ => false

/-- The `deleteNestedValue` walk reaches the final `delete` through plain
objects only. -/
def delObjWalk : Json → List String → Bool
  | _, [] => false
  | .obj _, [_] => true
  | .obj fields, k :: rest =>
      match fields.lookup k with
      | some (.obj fs) => delObjWalk (.obj fs) rest
      | _ => false
  | _, _ => false

/-! ## Concrete documents used by witnesses and counterexamples -/

/-- Build a field list from a Lean list. -/
def fds : List (String × Json) → JsonFields
  | [] => .nil
  | (k, v) :: tl => .cons k v (fds tl)

/-- Build a plain object from a Lean list of fields. -/
def ob (l : List (String × Json)) : Json := .obj (fds l)

/-- Build an array (with no string-keyed properties). -/
def els : List Json → JsonList
  | [] => .nil
  | h :: tl => .cons h (els tl)

/-! ## Basic lemmas on fields and cloning -/

theorem lookup_setField_self : ∀ (fs : JsonFields) (k : String) (v : Json),
    (fs.setField k v).lookup k = some v
  | .nil, k, v => by simp [JsonFields.setField, JsonFields.lookup]
  | .cons k' v' tl, k, v => by
      by_cases h : k' = k <;>
        simp [JsonFields.setField, JsonFields.lookup, h, lookup_setField_self tl k v]

theorem lookup_setField_ne : ∀ (fs : JsonFields) (k k' : String) (v : Json),
    k' ≠ k → (fs.setField k v).lookup k' = fs.lookup k'
  | .nil, k, k', v, h => by
      simp [JsonFields.setField, JsonFields.lookup, Ne.symm h]
  | .cons a w tl, k, k', v, h => by
      by_cases ha : a = k
      · subst ha
        simp [JsonFields.setField, JsonFields.lookup, Ne.symm h]
      · simp [JsonFields.setField, JsonFields.lookup, ha,
          lookup_setField_ne tl k k' v h]

theorem lookup_of_hasKey_eq_false : ∀ (fs : JsonFields) (k : String),
    fs.hasKey k = false → fs.lookup k = none
  | .nil, _, _ => rfl
  | .cons a w tl, k, h => by
      simp only [JsonFields.hasKey, Bool.or_eq_false_iff, decide_eq_false_iff_not] at h
      simp [JsonFields.lookup, h.1, lookup_of_hasKey_eq_false tl k h.2]

theorem lookup_removeField_self : ∀ (fs : JsonFields) (k : String),
    isJsonFields fs = true → (fs.removeField k).lookup k = none
  | .nil, k, _ => by simp [JsonFields.removeField, JsonFields.lookup]
  | .cons a w tl, k, h => by
      simp only [isJsonFields, Bool.and_eq_true, Bool.not_eq_true'] at h
      obtain ⟨⟨h1, h2⟩, h3⟩ := h
      by_cases ha : a = k
      · subst ha
        simpa [JsonFields.removeField] using lookup_of_hasKey_eq_false tl a h1
      · simp only [JsonFields.removeField, if_neg ha, JsonFields.lookup, if_neg ha]
        exact lookup_removeField_self tl k h3

theorem lookup_removeField_ne : ∀ (fs : JsonFields) (k k' : String), k' ≠ k →
    (fs.removeField k).lookup k' = fs.lookup k'
  | .nil, k, k', _ => by simp [JsonFields.removeField, JsonFields.lookup]
  | .cons a w tl, k, k', h => by
      by_cases ha : a = k
      · subst ha
        simp [JsonFields.removeField, JsonFields.lookup, Ne.symm h]
      · simp [JsonFields.removeField, JsonFields.lookup, ha,
          lookup_removeField_ne tl k k' h]

mutual

theorem deepClone_id : ∀ (j : Json), isJsonValue j = true → deepClone j = j
  | .str _, _ => rfl
  | .num _, _ => rfl
  | .bool _, _ => rfl
  | .null, _ => rfl
  | .undef, h => by simp [isJsonValue] at h
  | .hole, h => by simp [isJsonValue] at h
  | .arr elems props, h => by
      simp only [isJsonValue, Bool.and_eq_true, beq_iff_eq] at h
      simp [deepClone, cloneElems_id elems h.1, h.2]
  | .obj fields, h => by
      simp only [isJsonValue] at h
      simp [deepClone, cloneFields_id fields h]

theorem cloneElems_id : ∀ (l : JsonList), isJsonElems l = true → cloneElems l = l
  | .nil, _ => rfl
  | .cons hd tl, h => by
      simp only [isJsonElems, Bool.and_eq_true] at h
      simp [cloneElems, deepClone_id hd h.1, cloneElems_id tl h.2]

theorem cloneFields_id : ∀ (fs : JsonFields), isJsonFields fs = true →
    cloneFields fs = fs
  | .nil, _ => rfl
  | .cons k v tl, h => by
      simp only [isJsonFields, Bool.and_eq_true] at h
      obtain ⟨⟨h1, h2⟩, h3⟩ := h
      have hv : v ≠ Json.undef := by
        intro hv
        rw [hv] at h2
        simp [isJsonValue] at h2
      simp [cloneFields, hv, deepClone_id v h2, cloneFields_id tl h3]

end

/-! ## Concrete instances for the claims -/

/-- Source document `{"a":"1","b":"2"}` of the sync scenarios. -/
def syncSource : Json := ob [("a", .str "1"), ("b", .str "2")]

/-- Store for the failing sync input: the target namespace is empty, so
both source keys are missing from it. -/
def stSyncBug : TState :=
  [(("en", "common"), syncSource), (("en", "other"), ob [])]

/-- Store for the spec's own sync scenario: the target already holds
`"a"`, so exactly one key is missing. -/
def stSyncSpec : TState :=
  [(("en", "common"), syncSource), (("en", "other"), ob [("a", .str "x")])]

/-- C2: `syncKeys` adds only the last missing key when several are
missing: each loop iteration applies `setNestedValue` to the *original*
`targetFile.content` and saves, so every save overwrites the previous
one.  With source `{"a":"1","b":"2"}` and an empty target, the final
target holds only `{"b":""}` although the operation log claims both keys
were synced with `success=true`; the spec's own single-missing-key
scenario (target `{"a":"x"}`) does come out as specified. -/
theorem C2_syncKeys_last_write_wins :
    loadTF (syncKeys stSyncBug "common" ["other"] "en" false).2 "en" "other"
        = some (ob [("b", .str "")]) ∧
    getNestedValue ((loadTF (syncKeys stSyncBug "common" ["other"] "en" false).2
        "en" "other").getD .null) "a" = none ∧
    (syncKeys stSyncBug "common" ["other"] "en" false).1.success = true ∧
    ((syncKeys stSyncBug "common" ["other"] "en" false).1.operations.map
        fun o => o.key) = ["a", "b"] ∧
    loadTF (syncKeys stSyncSpec "common" ["other"] "en" false).2 "en" "other"
        = some (ob [("a", .str "x"), ("b", .str "")]) := by
  refine ⟨by decide, by decide, by decide, by decide, by decide⟩

/-- A file path used by the load-classification instances. -/
def c6path : String := "/locales/en/common.json"

/-- C6 counterexample: the load failure for a missing file and the load
failure for an I/O error are the *same* `FileSystemError` value — there
is no separate `NotFoundError` kind — so load does not surface three
mutually distinguishable failure kinds (parse failures alone are
distinguishable, as `ValidationError`). -/
theorem C6_load_error_kinds_counterexample :
    loadTranslationFileResult c6path .statFails
        = loadTranslationFileResult c6path .readFails ∧
    isFileSystemFailure (loadTranslationFileResult c6path .statFails) = true ∧
    isParseFailure (loadTranslationFileResult c6path (.invalidJson "not json"))
        = true := by
  exact ⟨rfl, rfl, rfl⟩

/-- C6 (amended): `loadTranslationFile` surfaces exactly two failure
kinds: `ValidationError` exactly when the file exists, reads, and its
content is not valid JSON; and `FileSystemError` for both a missing file
and any other I/O failure, which are therefore not distinguishable from
each other by kind. -/
theorem C6_load_error_kinds_amended (filePath : String) (file : DiskFileState) :
    (isParseFailure (loadTranslationFileResult filePath file) = true ↔
        ∃ raw, file = .invalidJson raw) ∧
    (isFileSystemFailure (loadTranslationFileResult filePath file) = true ↔
        file = .statFails ∨ file = .readFails) ∧
    loadTranslationFileResult filePath .statFails
        = loadTranslationFileResult filePath .readFails := by
  refine ⟨?_, ?_, rfl⟩ <;>
    cases file <;>
      simp [loadTranslationFileResult, isParseFailure, isFileSystemFailure]

/-- The parsed content of the aliasing scenario. -/
def c7doc : Json := ob [("greeting", .str "hello")]

/-- The caller's in-place mutation of that content. -/
def c7mut : Json := ob [("greeting", .str "mutated")]

/-- The store before the first load: one file on disk, cold cache. -/
def c7st : HeapFM := ⟨[], [], [("en:common", c7doc, 5)]⟩

/-- The store after the first load: the content object lives at address
0 and the cache points at that same address. -/
def c7st1 : HeapFM :=
  ⟨[c7doc], [("en:common", 0, 5)], [("en:common", c7doc, 5)]⟩

/-- C7 counterexample: a load returns the very object the cache holds,
not a copy — after the caller mutates the returned content in place, a
second load (served from the cache) returns the mutated content, and the
cache entry itself now reads mutated. -/
theorem C7_cache_alias_counterexample :
    heapLoad c7st "en:common" = some (0, c7st1) ∧
    heapRead c7st1 0 = some c7doc ∧
    heapLoad (heapMutate c7st1 0 c7mut) "en:common"
        = some (0, heapMutate c7st1 0 c7mut) ∧
    heapRead (heapMutate c7st1 0 c7mut) 0 = some c7mut ∧
    c7mut ≠ c7doc := by
  refine ⟨by decide, by decide, by decide, by decide, by decide⟩

/-- C7 (amended): every read through the store returns a live reference
into the cache — the address a load returns is exactly the address the
cache maps the key to afterwards (a cache hit returns the stored entry
itself; a fresh load stores the very object it returns), so caller
mutations through the returned reference are visible to later loads. -/
theorem C7_cache_alias_amended (st : HeapFM) (key : String) (addr : Nat)
    (st' : HeapFM) (h : heapLoad st key = some (addr, st')) :
    ∃ lm, assocFind st'.cache key = some (addr, lm) := by
  unfold heapLoad at h
  split at h
  · exact absurd h (by simp)
  · rename_i content mtime heq
    split at h
    · rename_i a lm hc
      split at h
      · simp only [Option.some.injEq, Prod.mk.injEq] at h
        obtain ⟨ha, hs⟩ := h
        subst ha
        subst hs
        exact ⟨lm, hc⟩
      · simp only [Option.some.injEq, Prod.mk.injEq] at h
        obtain ⟨ha, hs⟩ := h
        subst ha
        subst hs
        exact ⟨mtime, by simp [assocFind]⟩
    · simp only [Option.some.injEq, Prod.mk.injEq] at h
      obtain ⟨ha, hs⟩ := h
      subst ha
      subst hs
      exact ⟨mtime, by simp [assocFind]⟩

/-- C7 amended, applied to the concrete aliasing scenario. -/
theorem C7_cache_alias_amended_witness :
    ∃ lm, assocFind c7st1.cache "en:common" = some (0, lm) :=
  C7_cache_alias_amended c7st "en:common" 0 c7st1 (by decide)

/-- The document `{"a":[1]}` whose intermediate segment is an array. -/
def c8doc : Json := ob [("a", .arr (els [.num 1]) .nil)]

/-- C8 counterexample: an existing *array* at an intermediate segment is
not overwritten with `{}` — `typeof` of an array is `'object'` and it is
not `null`, so `setNestedValue` walks into it and attaches a string-keyed
property to the array instead. -/
theorem C8_set_nested_array_counterexample :
    setNestedValue c8doc "a.b" (.str "v")
        = .obj (.cons "a" (.arr (els [.num 1]) (.cons "b" (.str "v") .nil)) .nil) ∧
    setNestedValue c8doc "a.b" (.str "v") ≠ ob [("a", ob [("b", .str "v")])] := by
  exact ⟨by decide, by decide⟩

/-- Decidable equality of load/delete outcomes. -/
instance : DecidableEq (Except String Json) := fun a b =>
  match a, b with
  | .ok x, .ok y =>
      if h : x = y then .isTrue (by rw [h]) else .isFalse (by simp [h])
  | .error x, .error y =>
      if h : x = y then .isTrue (by rw [h]) else .isFalse (by simp [h])
  | .ok _, .error _ => .isFalse (by simp)
  | .error _, .ok _ => .isFalse (by simp)

/-- The document `{"a":{"b":"x"}}` of the delete-pruning scenario. -/
def c9doc : Json := ob [("a", ob [("b", .str "x")])]

/-- The document `{"a":null}` on which a nonexistent-path delete throws. -/
def c9null : Json := ob [("a", .null)]

/-- The document `{"a":{}}` whose pre-existing empty object a
nonexistent-path delete prunes away. -/
def c9empty : Json := ob [("a", ob [])]

/-- C9 counterexample: deleting a path that does not exist is *not*
always an error-free no-op.  On `{"a":null}` the walk steps into the
`null` (its `typeof` is `'object'`) and the final `delete` throws a
`TypeError`; and on `{"a":{}}` the path `a.b` does not exist either, yet
the cleanup pass prunes the pre-existing empty object, returning `{}`
instead of an equivalent clone. -/
theorem C9_delete_counterexample :
    getNestedValue c9null "a.b" = none ∧
    deleteNestedValue c9null "a.b"
        = .error "TypeError: cannot convert null to object" ∧
    getNestedValue c9empty "a.b" = none ∧
    deleteNestedValue c9empty "a.b" = .ok (ob []) ∧
    c9empty ≠ ob [] := by
  refine ⟨by decide, by decide, by decide, by decide, by decide⟩

/-- The empty-object-value document on which the round trip loses a key. -/
def c5empty : Json := ob [("a", ob [])]

/-- The dotted-key document on which the round trip reshapes the tree. -/
def c5dotted : Json := ob [("a.b", .num 1)]

/-- C5 counterexample: the flatten/unflatten round trip is not the
identity on every array-free nested document.  An empty object value
contributes no flattened path at all, so it vanishes; and a key
containing the separator is re-split into nesting (its value even reads
back as `undefined` through the dot-path, so the rebuilt leaf is the
`null` default rather than the original `1`). -/
theorem C5_round_trip_counterexample :
    unflattenPairs (flattenDoc c5empty) = ob [] ∧
    unflattenPairs (flattenDoc c5empty) ≠ c5empty ∧
    unflattenPairs (flattenDoc c5dotted) = ob [("a", ob [("b", Json.null)])] ∧
    unflattenPairs (flattenDoc c5dotted) ≠ c5dotted := by
  refine ⟨by decide, by decide, by decide, by decide⟩

/-! ## C1: the conflict-abort guarantee of `addKey` -/

/-- Does the key read as defined in the stored document of a pair — the
condition under which `checkKeyConflicts` records a conflict for it? -/
def keyExistsAt (st : TState) (language ns key : String) : Bool :=
  match loadTF st language ns with
  | some content => isDefined (getNestedValue content key)
  | none => false

/-- The cartesian product of the target languages and namespaces, in the
iteration order of the nested loops. -/
def targetPairs (languages namespaces : List String) : List (String × String) :=
  languages.flatMap fun l => namespaces.map fun n => (l, n)

theorem filterMap_if_eq (l : List α) (c : α → Bool) (g : α → β) :
    l.filterMap (fun a => if c a then some (g a) else none) = (l.filter c).map g := by
  induction l with
  | nil => rfl
  | cons a tl ih =>
      by_cases h : c a <;> simp [List.filterMap_cons, List.filter_cons, h, ih]

theorem checkKeyConflicts_inner (st : TState) (key l : String)
    (nss : List String) :
    (nss.filterMap fun ns =>
        match loadTF st l ns with
        | some content =>
            if isDefined (getNestedValue content key) then
              some (⟨key, l, ns, getNestedValue content key⟩ : KeyConflict)
            else none
        | none => none)
      = (nss.filter fun ns => keyExistsAt st l ns key).map
          fun ns => ⟨key, l, ns, getNestedValue ((loadTF st l ns).getD .null) key⟩ := by
  induction nss with
  | nil => rfl
  | cons ns tl ih =>
      rw [List.filterMap_cons, List.filter_cons]
      cases hl : loadTF st l ns with
      | none =>
          have : keyExistsAt st l ns key = false := by simp [keyExistsAt, hl]
          simp [this, ih]
      | some content =>
          by_cases hd : isDefined (getNestedValue content key)
          · have : keyExistsAt st l ns key = true := by simp [keyExistsAt, hl, hd]
            simp [hd, this, ih, hl]
          · have hdf : isDefined (getNestedValue content key) = false := by
              simpa using hd
            have : keyExistsAt st l ns key = false := by
              simp [keyExistsAt, hl, hdf]
            simp [hdf, this, ih]

theorem checkKeyConflicts_pairs (st : TState) (key : String)
    (langs nss : List String) :
    (checkKeyConflicts st key langs nss).map (fun c => (c.language, c.ns))
      = (targetPairs langs nss).filter fun p => keyExistsAt st p.1 p.2 key := by
  induction langs with
  | nil => rfl
  | cons l tl ih =>
      simp only [checkKeyConflicts, targetPairs, List.flatMap_cons, List.map_append,
        List.filter_append] at ih ⊢
      rw [checkKeyConflicts_inner st key l nss, List.map_map, List.filter_map, ih]
      rfl

theorem checkKeyConflicts_key (st : TState) (key : String)
    (langs nss : List String) :
    ∀ c ∈ checkKeyConflicts st key langs nss, c.key = key := by
  intro c hc
  simp only [checkKeyConflicts, List.mem_flatMap, List.mem_filterMap] at hc
  obtain ⟨l, _, ns, _, hm⟩ := hc
  cases hl : loadTF st l ns with
  | none => rw [hl] at hm; exact absurd hm (by simp)
  | some content =>
      rw [hl] at hm
      by_cases hd : isDefined (getNestedValue content key)
      · simp only [hd, if_true, Option.some.injEq] at hm
        rw [← hm]
      · have hdf : isDefined (getNestedValue content key) = false := by
          simpa using hd
        simp [hdf] at hm

/-- C1: with `overwrite=false` and the key already present in at least
one target pair, `addKey` reports `success=false`, returns exactly one
conflict per target pair in which the key exists (in iteration order,
each carrying the requested key), and leaves the entire store — every
target document included — untouched: the operation aborts before any
save. -/
theorem C1_addKey_conflict_abort (cfg : I18nConfig) (st : TState)
    (op : KeyAddition) (hov : op.overwrite = false)
    (hex : ((targetPairs (op.languages.getD cfg.languages)
        (op.namespaces.getD cfg.namespaces)).filter
          fun p => keyExistsAt st p.1 p.2 op.key) ≠ []) :
    (addKey cfg st op).1.success = false ∧
    ((addKey cfg st op).1.conflicts.map fun c => (c.language, c.ns))
        = ((targetPairs (op.languages.getD cfg.languages)
            (op.namespaces.getD cfg.namespaces)).filter
              fun p => keyExistsAt st p.1 p.2 op.key) ∧
    (∀ c ∈ (addKey cfg st op).1.conflicts, c.key = op.key) ∧
    (addKey cfg st op).2 = st := by
  have hpairs := checkKeyConflicts_pairs st op.key
    (op.languages.getD cfg.languages) (op.namespaces.getD cfg.namespaces)
  have hconf : checkKeyConflicts st op.key (op.languages.getD cfg.languages)
      (op.namespaces.getD cfg.namespaces) ≠ [] := by
    intro h0
    rw [h0] at hpairs
    exact hex hpairs.symm
  have hlen : 0 < (checkKeyConflicts st op.key (op.languages.getD cfg.languages)
      (op.namespaces.getD cfg.namespaces)).length :=
    List.length_pos.mpr hconf
  have hcond : ((checkKeyConflicts st op.key (op.languages.getD cfg.languages)
      (op.namespaces.getD cfg.namespaces)).length > 0 && !op.overwrite) = true := by
    simp [hov, hlen]
  unfold addKey
  rw [if_pos hcond]
  exact ⟨rfl, hpairs, checkKeyConflicts_key st op.key _ _, rfl⟩

/-- The three-pair configuration of the conflict scenario: languages
`en`, `es`, `de`, one namespace. -/
def cfgC1 : I18nConfig := ⟨["en", "es", "de"], ["common"], "en"⟩

/-- Three documents; the key `a.b` exists in exactly one of them. -/
def stC1 : TState :=
  [(("en", "common"), ob [("greeting", .str "hi")]),
   (("es", "common"), ob [("a", ob [("b", .str "x")])]),
   (("de", "common"), ob [("greeting", .str "hallo")])]

/-- C1 at the concrete three-pair scenario: success is false, the
conflict list has length one, and all three documents are unchanged. -/
theorem C1_addKey_conflict_abort_witness :
    (addKey cfgC1 stC1 { key := "a.b", defaultValue := "v" }).1.success = false ∧
    (addKey cfgC1 stC1 { key := "a.b", defaultValue := "v" }).1.conflicts.length = 1 ∧
    (addKey cfgC1 stC1 { key := "a.b", defaultValue := "v" }).2 = stC1 := by
  have h := C1_addKey_conflict_abort cfgC1 stC1
    { key := "a.b", defaultValue := "v" } rfl (by decide)
  refine ⟨h.1, ?_, h.2.2.2⟩
  have := congrArg List.length h.2.1
  rw [List.length_map] at this
  rw [this]
  decide

/-! ## C10: `renameKey` with a conflict-free new key and an absent old key -/

/-- The error message `renameKey` records for a pair whose old key is
absent. -/
def renameNotFoundMsg (op : KeyRename) (p : String × String) : String :=
  s!"Key \"{op.oldKey}\" not found in {p.1}/{p.2}"

theorem renameKey_fold_missing (op : KeyRename) :
    ∀ (pairs : List (String × String)) (res : OperationResult) (st : TState),
    (∀ p ∈ pairs, ∃ c, loadTF st p.1 p.2 = some c ∧
        isDefined (getNestedValue c op.oldKey) = false) →
    pairs.foldl (fun acc p => renameKeyPair op acc p.1 p.2) (res, st)
      = ({ res with errors := res.errors ++ pairs.map (renameNotFoundMsg op) }, st)
  | [], res, st, _ => by simp
  | p :: tl, res, st, h => by
      obtain ⟨c, hc, hd⟩ := h p (by simp)
      have hstep : renameKeyPair op (res, st) p.1 p.2
          = ({ res with errors := res.errors ++ [renameNotFoundMsg op p] }, st) := by
        simp [renameKeyPair, hc, hd, renameNotFoundMsg]
      rw [List.foldl_cons, hstep,
        renameKey_fold_missing op tl _ st (fun q hq => h q (by simp [hq]))]
      simp

/-- C10: when the new key is conflict-free and every target pair loads
but lacks the old key, `renameKey` returns `success=true` together with
one "not found" error per pair and an empty operations list — so
`success=true` does not imply that `errors` is empty — and the store is
untouched. -/
theorem C10_rename_missing_old_key (cfg : I18nConfig) (st : TState)
    (op : KeyRename)
    (hconf : checkKeyConflicts st op.newKey (op.languages.getD cfg.languages)
        (op.namespaces.getD cfg.namespaces) = [])
    (hmiss : ∀ p ∈ targetPairs (op.languages.getD cfg.languages)
        (op.namespaces.getD cfg.namespaces), ∃ c, loadTF st p.1 p.2 = some c ∧
        isDefined (getNestedValue c op.oldKey) = false)
    (hne : targetPairs (op.languages.getD cfg.languages)
        (op.namespaces.getD cfg.namespaces) ≠ []) :
    (renameKey cfg st op).1.success = true ∧
    (renameKey cfg st op).1.operations = [] ∧
    (renameKey cfg st op).1.errors
        = (targetPairs (op.languages.getD cfg.languages)
            (op.namespaces.getD cfg.namespaces)).map (renameNotFoundMsg op) ∧
    (renameKey cfg st op).1.errors ≠ [] ∧
    (renameKey cfg st op).2 = st := by
  have hcond : ((checkKeyConflicts st op.newKey (op.languages.getD cfg.languages)
      (op.namespaces.getD cfg.namespaces)).length > 0 && !op.overwrite) = false := by
    simp [hconf]
  unfold renameKey
  rw [if_neg (by simp [hcond])]
  rw [show (op.languages.getD cfg.languages).flatMap
        (fun l => (op.namespaces.getD cfg.namespaces).map fun n => (l, n))
      = targetPairs (op.languages.getD cfg.languages)
          (op.namespaces.getD cfg.namespaces) from rfl]
  rw [renameKey_fold_missing op _ _ st hmiss]
  refine ⟨rfl, rfl, by simp, ?_, rfl⟩
  simpa using hne

/-- C10 at a concrete input: three loadable pairs, a globally absent old
key, a fresh new key. -/
theorem C10_rename_missing_old_key_witness :
    (renameKey cfgC1 stC1 { oldKey := "missing.key", newKey := "fresh.key" }).1.success
        = true ∧
    (renameKey cfgC1 stC1 { oldKey := "missing.key", newKey := "fresh.key" }).1.operations
        = [] ∧
    (renameKey cfgC1 stC1 { oldKey := "missing.key", newKey := "fresh.key" }).1.errors.length
        = 3 ∧
    (renameKey cfgC1 stC1 { oldKey := "missing.key", newKey := "fresh.key" }).2 = stC1 := by
  have h := C10_rename_missing_old_key cfgC1 stC1
    { oldKey := "missing.key", newKey := "fresh.key" } (by decide)
    (by decide) (by decide)
  refine ⟨h.1, h.2.1, ?_, h.2.2.2.2⟩
  rw [h.2.2.1]
  decide

/-! ## C3: the quality-scoring rule -/

theorem calculateQualityScore_score_nonneg (keys : List String)
    (issues : List ValidationIssue) :
    0 ≤ (calculateQualityScore keys issues).score := by
  simp only [calculateQualityScore]
  exact le_max_left 0 _

theorem mem_upsertFile : ∀ (l : List (String × FileReport)) (k : String)
    (r : FileReport) (x : String × FileReport),
    x ∈ upsertFile l k r → x.2 = r ∨ x ∈ l
  | [], k, r, x, h => by
      simp only [upsertFile, List.mem_singleton] at h
      exact Or.inl (by rw [h])
  | (k', r') :: tl, k, r, x, h => by
      by_cases he : k' = k
      · simp only [upsertFile, if_pos he, List.mem_cons] at h
        rcases h with h | h
        · exact Or.inl (by rw [h])
        · exact Or.inr (List.mem_cons_of_mem _ h)
      · simp only [upsertFile, if_neg he, List.mem_cons] at h
        rcases h with h | h
        · exact Or.inr (by simp [h])
        · rcases mem_upsertFile tl k r x h with h2 | h2
          · exact Or.inl h2
          · exact Or.inr (by simp [h2])

theorem foldl_upsert_inv {α : Type} (P : FileReport → Prop) :
    ∀ (pairs : List α) (kf : α → String) (rf : α → FileReport),
    (∀ a, P (rf a)) →
    ∀ acc, (∀ x ∈ acc, P (Prod.snd x)) →
    ∀ x ∈ pairs.foldl (fun acc a => upsertFile acc (kf a) (rf a)) acc, P x.2
  | [], _, _, _, _, hacc, x, hx => hacc x hx
  | a :: tl, kf, rf, hrf, acc, hacc, x, hx => by
      refine foldl_upsert_inv P tl kf rf hrf (upsertFile acc (kf a) (rf a))
        ?_ x (by simpa using hx)
      intro y hy
      rcases mem_upsertFile acc (kf a) (rf a) y hy with h | h
      · rw [h]; exact hrf a
      · exact hacc y h

theorem jsRoundDiv_nearest (total : Int) (n : Nat) (h0 : 0 ≤ total)
    (hn : 0 < n) :
    |2 * total - 2 * (n : Int) * jsRoundDiv total n| ≤ (n : Int) := by
  have hjs : jsRoundDiv total n
      = (((2 * total.toNat + n) / (2 * n) : Nat) : Int) := rfl
  have hdm := Nat.div_add_mod (2 * total.toNat + n) (2 * n)
  have hrlt : (2 * total.toNat + n) % (2 * n) < 2 * n := Nat.mod_lt _ (by omega)
  have hdmz : 2 * (n : Int) * (((2 * total.toNat + n) / (2 * n) : Nat) : Int)
      + (((2 * total.toNat + n) % (2 * n) : Nat) : Int)
      = 2 * (total.toNat : Int) + (n : Int) := by exact_mod_cast hdm
  have hrz : (((2 * total.toNat + n) % (2 * n) : Nat) : Int) < 2 * (n : Int) := by
    exact_mod_cast hrlt
  have hr0 : (0 : Int) ≤ (((2 * total.toNat + n) % (2 * n) : Nat) : Int) :=
    Int.natCast_nonneg _
  have htot : (total.toNat : Int) = total := Int.toNat_of_nonneg h0
  rw [hjs, abs_le]
  constructor <;> linarith

/-- The concrete issue list with two errors and three warnings. -/
def c3issues : List ValidationIssue :=
  [⟨"t", "error", "m", none, [], []⟩, ⟨"t", "error", "m", none, [], []⟩,
   ⟨"t", "warning", "m", none, [], []⟩, ⟨"t", "warning", "m", none, [], []⟩,
   ⟨"t", "warning", "m", none, [], []⟩]

/-- C3: the per-file quality score is `max(0, min(100, 100 − 10·errors −
2·warnings))` over the file's issue list, graded `A`/`B`/`C`/`D`/`F` by
the 90/80/70/60 thresholds (stated as exact interval characterisations);
a file with 2 errors and 3 warnings scores 74 with grade C; and the
health-check summary score is `calculateOverallScore` of the per-file
reports — the arithmetic mean of the per-file scores, unweighted by key
count, rounded to the nearest integer, which the final conjunct pins
down as `|2·Σscores − 2·n·score| ≤ n`. -/
theorem C3_quality_scoring (keys : List String) (issues : List ValidationIssue)
    (cfg : I18nConfig) (disk : String → String → Option Json)
    (langs? nss? : Option (List String)) (detailed : Bool)
    (fileIssuesOf : String → String → List ValidationIssue) :
    ((calculateQualityScore keys issues).score
        = max 0 (min 100 (100
            - ((issues.filter fun i => i.severity == "error").length : Int) * 10
            - ((issues.filter fun i => i.severity == "warning").length : Int) * 2))) ∧
    ((calculateQualityScore keys issues).grade = "A"
        ↔ 90 ≤ (calculateQualityScore keys issues).score) ∧
    ((calculateQualityScore keys issues).grade = "B"
        ↔ 80 ≤ (calculateQualityScore keys issues).score
            ∧ (calculateQualityScore keys issues).score < 90) ∧
    ((calculateQualityScore keys issues).grade = "C"
        ↔ 70 ≤ (calculateQualityScore keys issues).score
            ∧ (calculateQualityScore keys issues).score < 80) ∧
    ((calculateQualityScore keys issues).grade = "D"
        ↔ 60 ≤ (calculateQualityScore keys issues).score
            ∧ (calculateQualityScore keys issues).score < 70) ∧
    ((calculateQualityScore keys issues).grade = "F"
        ↔ (calculateQualityScore keys issues).score < 60) ∧
    calculateQualityScore [] c3issues = ⟨74, "C", 0, 2, 3⟩ ∧
    (performHealthCheck cfg disk langs? nss? detailed fileIssuesOf).summary.score
        = calculateOverallScore
            ((performHealthCheck cfg disk langs? nss? detailed fileIssuesOf).files.map
              Prod.snd) ∧
    (∀ x ∈ (performHealthCheck cfg disk langs? nss? detailed fileIssuesOf).files,
        0 ≤ (Prod.snd x).qualityScore.score) ∧
    ∀ files : List FileReport, files ≠ [] →
      (∀ f ∈ files, 0 ≤ f.qualityScore.score) →
      |2 * (files.map fun f => f.qualityScore.score).sum
          - 2 * (files.length : Int) * calculateOverallScore files|
        ≤ (files.length : Int) := by
  refine ⟨?_, ?_, ?_, ?_, ?_, ?_, by decide, rfl, ?_, ?_⟩
  · simp only [calculateQualityScore]
  · simp only [calculateQualityScore]
    split_ifs <;> simp <;> omega
  · simp only [calculateQualityScore]
    split_ifs <;> simp <;> omega
  · simp only [calculateQualityScore]
    split_ifs <;> simp <;> omega
  · simp only [calculateQualityScore]
    split_ifs <;> simp <;> omega
  · simp only [calculateQualityScore]
    split_ifs <;> simp <;> omega
  · intro x hx
    refine foldl_upsert_inv (fun r => 0 ≤ r.qualityScore.score) _ _ _
      ?_ [] (by simp) x hx
    intro p
    exact calculateQualityScore_score_nonneg _ _
  · intro files hne hpos
    have hsum : 0 ≤ (files.map fun f => f.qualityScore.score).sum := by
      refine List.sum_nonneg ?_
      intro x hx
      obtain ⟨f, hf, hfx⟩ := List.mem_map.mp hx
      rw [← hfx]
      exact hpos f hf
    have hlen : 0 < files.length := List.length_pos.mpr hne
    have hov : calculateOverallScore files
        = jsRoundDiv (files.map fun f => f.qualityScore.score).sum files.length := by
      unfold calculateOverallScore
      rw [if_neg (by omega)]
    rw [hov]
    exact jsRoundDiv_nearest _ _ hsum hlen

/-- The two-language, one-namespace configuration of the health-check
scenarios. -/
def cfgHC : I18nConfig := ⟨["en", "es"], ["common"], "en"⟩

/-- A disk on which `en/common` loads and `es/common` fails to load. -/
def diskHC : String → String → Option Json := fun l n =>
  if l = "en" && n = "common" then some (ob [("a", .str "x")]) else none

/-- Per-file issues: one error for the `en` file, none for `es`. -/
def issuesHC : String → String → List ValidationIssue := fun l _ =>
  if l = "en" then [⟨"t", "error", "m", none, [], []⟩] else []

/-- C3 applied concretely: the 2-error/3-warning file scores 74 with
grade C, and on a two-file health check (per-file scores 90 and 100) the
summary score is the rounded mean 95, within half a unit of the true
mean. -/
theorem C3_quality_scoring_witness :
    (performHealthCheck cfgHC diskHC none none false issuesHC).summary.score = 95 ∧
    calculateQualityScore [] c3issues = ⟨74, "C", 0, 2, 3⟩ ∧
    |2 * ((((performHealthCheck cfgHC diskHC none none false issuesHC).files.map
          Prod.snd).map fun f => f.qualityScore.score).sum)
        - 2 * ((((performHealthCheck cfgHC diskHC none none false
            issuesHC).files.map Prod.snd)).length : Int)
          * calculateOverallScore
              ((performHealthCheck cfgHC diskHC none none false issuesHC).files.map
                Prod.snd)|
      ≤ (((performHealthCheck cfgHC diskHC none none false issuesHC).files.map
          Prod.snd).length : Int) := by
  have h := C3_quality_scoring [] c3issues cfgHC diskHC none none false issuesHC
  exact ⟨by decide, h.2.2.2.2.2.2.1,
    h.2.2.2.2.2.2.2.2.2 _ (by decide) (by decide)⟩

/-! ## C4: the cross-language file-presence issue -/

/-- C4 counterexample: `es/common` fails to load (a `file_missing` issue
is recorded and the pair's document becomes `{}`), yet *no*
`cross_language_missing_files` issue is emitted — the availability
filter tests JavaScript truthiness of the entry, and the `{}` fallback
is truthy. -/
theorem C4_cross_language_counterexample :
    diskHC "es" "common" = none ∧
    cfgHC.languages = ["en", "es"] ∧
    ((performHealthCheck cfgHC diskHC none none false fun _ _ => []).issues.filter
        fun i => i.type == "cross_language_missing_files") = [] ∧
    ((performHealthCheck cfgHC diskHC none none false fun _ _ => []).issues.filter
        fun i => i.type == "file_missing").length = 1 := by
  refine ⟨rfl, rfl, by decide, by decide⟩

theorem crossLang_entry (translations : String → String → Option Json)
    (languages : List String) (nsv : String) (i : ValidationIssue)
    (h : (if (languages.filter fun lang => truthyOpt (translations lang nsv)).length
            < languages.length then
          some { type := "cross_language_missing_files", severity := "error",
                 message := s!"Namespace \"{nsv}\" missing in languages",
                 detNamespace := some nsv,
                 detMissingLanguages := languages.filter fun lang =>
                   !((languages.filter fun lang =>
                       truthyOpt (translations lang nsv)).contains lang),
                 detAvailableLanguages := languages.filter fun lang =>
                   truthyOpt (translations lang nsv) }
         else none) = some i) :
    i.type = "cross_language_missing_files" ∧ i.severity = "error" ∧
    i.detNamespace = some nsv ∧
    i.detMissingLanguages = languages.filter fun lang =>
      !((languages.filter fun lang => truthyOpt (translations lang nsv)).contains
          lang) := by
  by_cases hc : (languages.filter fun lang =>
      truthyOpt (translations lang nsv)).length < languages.length
  · rw [if_pos hc] at h
    cases h
    exact ⟨rfl, rfl, rfl, rfl⟩
  · rw [if_neg hc] at h
    exact absurd h (by simp)

theorem crossLang_shape (translations : String → String → Option Json)
    (languages namespaces : List String) :
    ∀ i ∈ performCrossLanguageAnalysis translations languages namespaces,
      ∃ ns' ∈ namespaces,
        i.type = "cross_language_missing_files" ∧ i.severity = "error" ∧
        i.detNamespace = some ns' ∧
        (languages.filter fun lang => truthyOpt (translations lang ns')).length
          < languages.length ∧
        i.detMissingLanguages = languages.filter fun lang =>
          !((languages.filter fun lang => truthyOpt (translations lang ns')).contains
              lang) := by
  intro i hi
  simp only [performCrossLanguageAnalysis, List.mem_filterMap] at hi
  obtain ⟨ns', hns', hsome⟩ := hi
  refine ⟨ns', hns', ?_⟩
  have h := crossLang_entry translations languages ns' i hsome
  refine ⟨h.1, h.2.1, h.2.2.1, ?_, h.2.2.2⟩
  by_cases hc : (languages.filter fun lang =>
      truthyOpt (translations lang ns')).length < languages.length
  · exact hc
  · rw [if_neg hc] at hsome
    exact absurd hsome (by simp)

theorem crossLang_filter_notin (translations : String → String → Option Json)
    (languages : List String) (ns : String) :
    ∀ nss : List String, ns ∉ nss →
    ((performCrossLanguageAnalysis translations languages nss).filter
        fun i => i.detNamespace == some ns) = []
  | [], _ => rfl
  | ns' :: tl, hn => by
      have hne : ns' ≠ ns := fun h => hn (by simp [h])
      have htl : ns ∉ tl := fun h => hn (by simp [h])
      simp only [performCrossLanguageAnalysis, List.filterMap_cons]
      by_cases hc : (languages.filter fun lang =>
          truthyOpt (translations lang ns')).length < languages.length
      · rw [if_pos hc]
        simp only [List.filter_cons]
        rw [if_neg (by simp [hne])]
        exact crossLang_filter_notin translations languages ns tl htl
      · rw [if_neg hc]
        exact crossLang_filter_notin translations languages ns tl htl

theorem crossLang_count (translations : String → String → Option Json)
    (languages : List String) (ns : String) :
    ∀ nss : List String, ns ∈ nss → nss.Nodup →
    ((performCrossLanguageAnalysis translations languages nss).filter
        fun i => i.detNamespace == some ns).length
      = if (languages.filter fun lang => truthyOpt (translations lang ns)).length
            < languages.length then 1 else 0
  | [], hmem, _ => absurd hmem (by simp)
  | ns' :: tl, hmem, hnodup => by
      simp only [performCrossLanguageAnalysis, List.filterMap_cons]
      by_cases he : ns' = ns
      · subst he
        have htl : ns' ∉ tl := (List.nodup_cons.mp hnodup).1
        have hrest := crossLang_filter_notin translations languages ns' tl htl
        simp only [performCrossLanguageAnalysis] at hrest
        by_cases hc : (languages.filter fun lang =>
            truthyOpt (translations lang ns')).length < languages.length
        · rw [if_pos hc, if_pos hc]
          simp only [List.filter_cons]
          rw [if_pos (by simp)]
          rw [List.length_cons, hrest]
          rfl
        · rw [if_neg hc, if_neg hc]
          rw [hrest]
          rfl
      · have hmem' : ns ∈ tl := by
          cases List.mem_cons.mp hmem with
          | inl h => exact absurd h.symm he
          | inr h => exact h
        have ih := crossLang_count translations languages ns tl hmem'
          (List.nodup_cons.mp hnodup).2
        simp only [performCrossLanguageAnalysis] at ih
        by_cases hc : (languages.filter fun lang =>
            truthyOpt (translations lang ns')).length < languages.length
        · rw [if_pos hc]
          simp only [List.filter_cons]
          rw [if_neg (by simp [he])]
          exact ih
        · rw [if_neg hc]
          exact ih

/-- C4 (amended): the `cross_language_missing_files` issue for a
namespace is emitted exactly when some requested language's
`translations` entry for it is *falsy* — absent, or a loaded document
that is a falsy JSON value such as `null` — and it then lists as missing
exactly the languages with falsy entries.  Within `performHealthCheck`
every load failure is replaced by `{}`, which is truthy, so a pair whose
file fails to load (or any disk of truthy documents) never triggers the
issue: the health check emits none at all. -/
theorem C4_cross_language_amended
    (translations : String → String → Option Json)
    (languages namespaces : List String) (ns : String)
    (cfg : I18nConfig) (disk : String → String → Option Json)
    (langs? nss? : Option (List String)) (detailed : Bool)
    (fileIssuesOf : String → String → List ValidationIssue)
    (hmem : ns ∈ namespaces) (hnodup : namespaces.Nodup)
    (htruthy : ∀ l n d, disk l n = some d → d.truthy = true)
    (hft : ∀ l n i, i ∈ fileIssuesOf l n →
        i.type ≠ "cross_language_missing_files") :
    (((performCrossLanguageAnalysis translations languages namespaces).filter
        fun i => i.detNamespace == some ns).length
        = if ∃ l ∈ languages, truthyOpt (translations l ns) = false
          then 1 else 0) ∧
    (∀ i ∈ performCrossLanguageAnalysis translations languages namespaces,
        i.type = "cross_language_missing_files" ∧ i.severity = "error") ∧
    (∀ i ∈ performCrossLanguageAnalysis translations languages namespaces,
        i.detNamespace = some ns →
        i.detMissingLanguages
          = languages.filter fun l => !(truthyOpt (translations l ns))) ∧
    ((performHealthCheck cfg disk langs? nss? detailed fileIssuesOf).issues.filter
        fun i => i.type == "cross_language_missing_files") = [] := by
  have hcount := crossLang_count translations languages ns namespaces hmem hnodup
  have hiff : ((languages.filter fun lang =>
        truthyOpt (translations lang ns)).length < languages.length)
      ↔ ∃ l ∈ languages, truthyOpt (translations l ns) = false := by
    rw [List.length_filter_lt_length_iff_exists]
    constructor
    · rintro ⟨l, hl, hnl⟩
      exact ⟨l, hl, by simpa using hnl⟩
    · rintro ⟨l, hl, hnl⟩
      exact ⟨l, hl, by simp [hnl]⟩
  refine ⟨?_, ?_, ?_, ?_⟩
  · rw [hcount]
    by_cases hc : ∃ l ∈ languages, truthyOpt (translations l ns) = false
    · rw [if_pos hc, if_pos (hiff.mpr hc)]
    · rw [if_neg hc, if_neg (fun h => hc (hiff.mp h))]
  · intro i hi
    obtain ⟨ns', _, ht, hs, _, _, _⟩ :=
      crossLang_shape translations languages namespaces i hi
    exact ⟨ht, hs⟩
  · intro i hi hdn
    obtain ⟨ns', _, _, _, hdn', _, hml⟩ :=
      crossLang_shape translations languages namespaces i hi
    have : ns' = ns := by
      rw [hdn] at hdn'
      exact (Option.some.injEq ..).mp hdn'.symm
    subst this
    rw [hml]
    refine List.filter_congr ?_
    intro l hl
    have : (languages.filter fun lang =>
        truthyOpt (translations lang ns')).contains l
        = truthyOpt (translations l ns') := by
      by_cases ht : truthyOpt (translations l ns') = true
      · simp [List.elem_iff, List.mem_filter, hl, ht]
      · have hf : truthyOpt (translations l ns') = false := by
          simpa using ht
        simp [List.elem_iff, List.mem_filter, hf]
    rw [this]
  · -- the pipeline's cross-language pass finds every entry truthy
    have hcross : performCrossLanguageAnalysis
        (fun l n => if (langs?.getD cfg.languages).contains l
              && (nss?.getD cfg.namespaces).contains n then
            some ((disk l n).getD (.obj .nil))
          else none)
        (langs?.getD cfg.languages) (nss?.getD cfg.namespaces) = [] := by
      rw [performCrossLanguageAnalysis, List.filterMap_eq_nil_iff]
      intro ns' hns'
      have hall : ((langs?.getD cfg.languages).filter fun lang =>
          truthyOpt (if (langs?.getD cfg.languages).contains lang
                && (nss?.getD cfg.namespaces).contains ns' then
              some ((disk lang ns').getD (.obj .nil))
            else none))
          = langs?.getD cfg.languages := by
        rw [List.filter_eq_self]
        intro l hl
        have hc : ((langs?.getD cfg.languages).contains l
            && (nss?.getD cfg.namespaces).contains ns') = true := by
          simp [List.elem_iff, hl, hns']
        rw [hc]
        simp only [if_true]
        cases hd : disk l ns' with
        | none => rfl
        | some d => simpa [truthyOpt] using htruthy l ns' d hd
      rw [if_neg]
      rw [hall]
      omega
    simp only [performHealthCheck, List.filter_append]
    rw [hcross]
    have h1 : (((langs?.getD cfg.languages).flatMap fun l =>
        (nss?.getD cfg.namespaces).filterMap fun n =>
          match disk l n with
          | some _ => none
          | none => some (fileMissingIssue l n)).filter
        fun i => i.type == "cross_language_missing_files") = [] := by
      rw [List.filter_eq_nil_iff]
      intro i hi
      simp only [List.mem_flatMap, List.mem_filterMap] at hi
      obtain ⟨l, _, n, _, hsome⟩ := hi
      cases hd : disk l n with
      | some d => rw [hd] at hsome; exact absurd hsome (by simp)
      | none =>
          rw [hd] at hsome
          simp only [Option.some.injEq] at hsome
          rw [← hsome]
          simp [fileMissingIssue]
    have h2 : (((((langs?.getD cfg.languages).flatMap fun l =>
        (nss?.getD cfg.namespaces).map fun n => (l, n))).flatMap fun p =>
          fileIssuesOf p.1 p.2).filter
        fun i => i.type == "cross_language_missing_files") = [] := by
      rw [List.filter_eq_nil_iff]
      intro i hi
      simp only [List.mem_flatMap] at hi
      obtain ⟨p, _, hip⟩ := hi
      simpa using hft p.1 p.2 i hip
    rw [h1, h2]
    rfl

/-- C4 amended, applied concretely: with `es/common` parsing to the
falsy document `null` the issue is emitted once, listing `es` as
missing; and the health check over `diskHC` (with its failed `es` load)
emits none. -/
theorem C4_cross_language_amended_witness :
    (((performCrossLanguageAnalysis
        (fun l _ => if l = "en" then some (ob [("a", .str "x")])
          else some .null)
        ["en", "es"] ["common"]).filter
        fun i => i.detNamespace == some "common").length = 1) ∧
    ((performHealthCheck cfgHC diskHC none none false fun _ _ => []).issues.filter
        fun i => i.type == "cross_language_missing_files") = [] := by
  have h := C4_cross_language_amended
    (fun l _ => if l = "en" then some (ob [("a", .str "x")]) else some .null)
    ["en", "es"] ["common"] "common" cfgHC diskHC none none false
    (fun _ _ => []) (by decide) (by decide)
    (fun l n d hd => by
      revert hd
      unfold diskHC
      by_cases hl : (l = "en" && n = "common") = true
      · rw [if_pos hl]
        intro hd
        cases hd
        decide
      · rw [if_neg hl]
        intro hd
        exact absurd hd (by simp))
    (fun l n i hi => absurd hi (by simp))
  refine ⟨?_, h.2.2.2⟩
  rw [h.1, if_pos ?_]
  exact ⟨"es", by decide, by decide⟩

/-! ## C8: `setNestedValue` -/

theorem splitDotChars_ne_nil : ∀ cs : List Char, splitDotChars cs ≠ []
  | [], h => by simp [splitDotChars] at h
  | c :: rest, h => by
      by_cases hc : c = '.'
      · simp [splitDotChars, hc] at h
      · rw [splitDotChars, if_neg hc] at h
        revert h
        cases hsp : splitDotChars rest with
        | nil => exact fun h => by simp at h
        | cons s ss => exact fun h => by simp at h

theorem splitDot_ne_nil (s : String) : splitDot s ≠ [] := by
  unfold splitDot
  intro h
  exact splitDotChars_ne_nil s.data (List.map_eq_nil_iff.mp h)

theorem objWalkable_fresh : ∀ l : List String,
    objWalkable (.obj .nil) l = true
  | [] => rfl
  | [_] => rfl
  | _ :: _ :: _ => by
      simp [objWalkable, Json.getProp, JsonFields.lookup]

theorem setWalk_obj (fs : JsonFields) (v : Json) :
    ∀ l : List String, ∃ gs, setWalk (.obj fs) l v = .obj gs
  | [] => ⟨fs, rfl⟩
  | [k] => ⟨fs.setField k v, rfl⟩
  | k :: k' :: t => by
      rw [setWalk]
      · cases hp : (Json.obj fs).getProp k with
        | none => exact ⟨_, rfl⟩
        | some c => cases c <;> exact ⟨_, rfl⟩
      · exact fun h => List.noConfusion h

theorem setWalk_get (v : Json) : ∀ (segs : List String) (fs : JsonFields),
    segs ≠ [] → objWalkable (.obj fs) segs = true →
    (segs.foldl getStep (some (setWalk (.obj fs) segs v)) = some v) ∧
    (∀ p : List String, p ≠ [] → p <+: segs → p ≠ segs →
      ∃ gs, p.foldl getStep (some (setWalk (.obj fs) segs v)) = some (.obj gs))
  | [], _, hne, _ => absurd rfl hne
  | [k], fs, _, _ => by
      constructor
      · simp only [setWalk, Json.setProp, List.foldl_cons, List.foldl_nil,
          getStep, Json.truthy, Json.typeofObject, Bool.and_self, if_true,
          Json.getProp]
        exact lookup_setField_self fs k v
      · intro p hp hpre hne
        rcases hpre with ⟨t, ht⟩
        cases p with
        | nil => exact absurd rfl hp
        | cons a q =>
            cases q with
            | nil =>
                simp only [List.cons_append, List.nil_append,
                  List.cons.injEq] at ht
                exact absurd (by rw [ht.1]) hne
            | cons b r => simp at ht
  | k :: k' :: t, fs, _, hwalk => by
      have hrest : (k' :: t) ≠ [] := by simp
      -- classify the slot at the first segment: an existing object is
      -- descended into, anything else non-array is replaced by a fresh one
      have hmain : ∃ fs'', setWalk (.obj fs) (k :: k' :: t) v
            = .obj (fs.setField k (setWalk (.obj fs'') (k' :: t) v))
          ∧ objWalkable (.obj fs'') (k' :: t) = true := by
        cases hp : JsonFields.lookup fs k with
        | some c =>
            cases c with
            | obj fs' =>
                refine ⟨fs', ?_, ?_⟩
                · simp only [setWalk, Json.getProp, hp]
                  rfl
                · have h2 := hwalk
                  simp only [objWalkable, Json.getProp, hp] at h2
                  exact h2
            | arr es ps =>
                exfalso
                have h2 := hwalk
                simp [objWalkable, Json.getProp, hp] at h2
            | str s =>
                refine ⟨.nil, ?_, objWalkable_fresh _⟩
                simp only [setWalk, Json.getProp, hp]
                rfl
            | num n =>
                refine ⟨.nil, ?_, objWalkable_fresh _⟩
                simp only [setWalk, Json.getProp, hp]
                rfl
            | bool b =>
                refine ⟨.nil, ?_, objWalkable_fresh _⟩
                simp only [setWalk, Json.getProp, hp]
                rfl
            | null =>
                refine ⟨.nil, ?_, objWalkable_fresh _⟩
                simp only [setWalk, Json.getProp, hp]
                rfl
            | undef =>
                refine ⟨.nil, ?_, objWalkable_fresh _⟩
                simp only [setWalk, Json.getProp, hp]
                rfl
            | hole =>
                refine ⟨.nil, ?_, objWalkable_fresh _⟩
                simp only [setWalk, Json.getProp, hp]
                rfl
        | none =>
            refine ⟨.nil, ?_, objWalkable_fresh _⟩
            simp only [setWalk, Json.getProp, hp]
            rfl
      obtain ⟨fs'', hsw, hwalk'⟩ := hmain
      have ih := setWalk_get v (k' :: t) fs'' hrest hwalk'
      have hstep : getStep (some (.obj (fs.setField k
          (setWalk (.obj fs'') (k' :: t) v)))) k
          = some (setWalk (.obj fs'') (k' :: t) v) := by
        simp only [getStep, Json.truthy, Json.typeofObject, Bool.and_self,
          if_true, Json.getProp]
        exact lookup_setField_self _ _ _
      constructor
      · rw [hsw, List.foldl_cons, hstep]
        exact ih.1
      · intro p hp0 hpre hne
        cases p with
        | nil => exact absurd rfl hp0
        | cons a q =>
            have hak : a = k ∧ q <+: (k' :: t) :=
              List.cons_prefix_cons.mp hpre
            obtain ⟨rfl, hqpre⟩ := hak
            rw [hsw, List.foldl_cons, hstep]
            cases q with
            | nil =>
                obtain ⟨gs, hgs⟩ := setWalk_obj fs'' v (k' :: t)
                exact ⟨gs, by simp [hgs]⟩
            | cons b r =>
                exact ih.2 (b :: r) (by simp) hqpre
                  (fun he => hne (by rw [he]))

/-- C8 (amended): on a parsed document whose walk along the path meets
no existing array, `setNestedValue` returns a document in which the leaf
at the path reads back as the given value and every proper prefix of the
path resolves to an object — existing plain objects are descended into,
and missing slots or existing non-object values (primitives and `null`)
are replaced by objects.  The deliberately lossy non-object overwrite is
thereby captured; an existing *array* at an intermediate segment is the
exception the counterexample exhibits (the code descends into it instead
of replacing it), and the input document is never mutated, the clone
being taken before the walk.  -/
theorem C8_set_nested_amended (F : JsonFields) (path : String) (v : Json)
    (hclean : isJsonValue (.obj F) = true)
    (hwalk : objWalkable (.obj F) (splitDot path) = true) :
    getNestedValue (setNestedValue (.obj F) path v) path = some v ∧
    ∀ p : List String, p ≠ [] → p <+: splitDot path → p ≠ splitDot path →
      ∃ gs, p.foldl getStep (some (setNestedValue (.obj F) path v))
        = some (.obj gs) := by
  have hclone : deepClone (.obj F) = .obj F := deepClone_id _ hclean
  have h := setWalk_get v (splitDot path) F (splitDot_ne_nil path) hwalk
  constructor
  · show (splitDot path).foldl getStep
        (some (setWalk (deepClone (.obj F)) (splitDot path) v)) = some v
    rw [hclone]
    exact h.1
  · intro p hp hpre hne
    show ∃ gs, p.foldl getStep
        (some (setWalk (deepClone (.obj F)) (splitDot path) v)) = some (.obj gs)
    rw [hclone]
    exact h.2 p hp hpre hne

/-- C8 amended, applied concretely: setting `a.b.e` in
`{"a":{"c":1},"d":"x"}` (the slot `a.b` is missing, so a fresh object is
created) makes the leaf read back and leaves an object at the prefix
`a`. -/
theorem C8_set_nested_amended_witness :
    getNestedValue (setNestedValue (ob [("a", ob [("c", .num 1)]), ("d", .str "x")])
        "a.b.e" (.str "v")) "a.b.e" = some (.str "v") ∧
    ∃ gs, (["a"].foldl getStep
        (some (setNestedValue (ob [("a", ob [("c", .num 1)]), ("d", .str "x")])
          "a.b.e" (.str "v")))) = some (.obj gs) := by
  have h := C8_set_nested_amended (fds [("a", ob [("c", .num 1)]), ("d", .str "x")])
    "a.b.e" (.str "v") (by decide) (by decide)
  exact ⟨h.1, h.2 ["a"] (by decide) (by decide) (by decide)⟩

/-! ## C9: `deleteNestedValue` -/

theorem hasKey_lookup : ∀ (fs : JsonFields) (k : String),
    fs.hasKey k = (fs.lookup k).isSome
  | .nil, _ => rfl
  | .cons a w tl, k => by
      by_cases h : a = k <;>
        simp [JsonFields.hasKey, JsonFields.lookup, h, hasKey_lookup tl k]

theorem setField_lookup_self : ∀ (fs : JsonFields) (k : String) (c : Json),
    fs.lookup k = some c → fs.setField k c = fs
  | .nil, k, c, h => by simp [JsonFields.lookup] at h
  | .cons a w tl, k, c, h => by
      by_cases ha : a = k
      · subst ha
        rw [JsonFields.lookup, if_pos rfl] at h
        injection h with h
        simp [JsonFields.setField, h]
      · simp only [JsonFields.lookup, if_neg ha] at h
        simp [JsonFields.setField, ha, setField_lookup_self tl k c h]

theorem foldl_getStep_none : ∀ q : List String, q.foldl getStep none = none
  | [] => rfl
  | _ :: t => foldl_getStep_none t

/-- The shape of the document `deleteNestedValue`'s locate-and-delete
walk produces when it runs to completion through plain objects: the
field at the end of the path is removed, the spine rebuilt.  (Proof
companion to `delWalk`; not part of the embedding.) -/
def removeAtO : Json → List String → Json
  | .obj fs, [k] => .obj (fs.removeField k)
  | .obj fs, k :: rest =>
      match fs.lookup k with
      | some c => .obj (fs.setField k (removeAtO c rest))
      | none => .obj fs
  | j, _ => j

theorem delWalk_stops : ∀ (segs : List String) (fs : JsonFields),
    delStopsEarly (.obj fs) segs = true →
    delWalk (.obj fs) segs = .ok (false, .obj fs)
  | [], _, h => by simp [delStopsEarly] at h
  | [_], _, h => by simp [delStopsEarly] at h
  | k :: k' :: t, fs, h => by
      rw [delWalk]
      · cases hp : JsonFields.lookup fs k with
        | none =>
            have hhk : fs.hasKey k = false := by
              rw [hasKey_lookup, hp]
              rfl
            simp [Json.isObjOrArr, Json.hasProp, hhk]
        | some c =>
            have hhk : fs.hasKey k = true := by
              rw [hasKey_lookup, hp]
              rfl
            cases c with
            | obj fs' =>
                have h' : delStopsEarly (.obj fs') (k' :: t) = true := by
                  rw [delStopsEarly] at h
                  · simp only [hp] at h
                    exact h
                  · exact fun hh => List.noConfusion hh
                simp only [Json.isObjOrArr, if_true, Json.hasProp, hhk,
                  Json.getProp, hp, typeofOptObject, Json.typeofObject,
                  Bool.and_self, if_true]
                rw [delWalk_stops (k' :: t) fs' h']
                simp only [Json.setProp]
                rw [setField_lookup_self fs k (.obj fs') hp]
            | arr es ps =>
                exfalso
                rw [delStopsEarly] at h
                · simp [hp] at h
                · exact fun hh => List.noConfusion hh
            | null =>
                exfalso
                rw [delStopsEarly] at h
                · simp [hp] at h
                · exact fun hh => List.noConfusion hh
            | str s =>
                simp [Json.isObjOrArr, Json.hasProp, hhk, Json.getProp, hp,
                  typeofOptObject, Json.typeofObject]
            | num n =>
                simp [Json.isObjOrArr, Json.hasProp, hhk, Json.getProp, hp,
                  typeofOptObject, Json.typeofObject]
            | bool b =>
                simp [Json.isObjOrArr, Json.hasProp, hhk, Json.getProp, hp,
                  typeofOptObject, Json.typeofObject]
            | undef =>
                simp [Json.isObjOrArr, Json.hasProp, hhk, Json.getProp, hp,
                  typeofOptObject, Json.typeofObject]
            | hole =>
                simp [Json.isObjOrArr, Json.hasProp, hhk, Json.getProp, hp,
                  typeofOptObject, Json.typeofObject]
      · exact fun hh => List.noConfusion hh

theorem delWalk_removes : ∀ (segs : List String) (fs : JsonFields),
    delObjWalk (.obj fs) segs = true →
    delWalk (.obj fs) segs = .ok (true, removeAtO (.obj fs) segs)
  | [], _, h => by simp [delObjWalk] at h
  | [k], fs, _ => by
      rw [delWalk]
      simp [Json.delProp, removeAtO]
  | k :: k' :: t, fs, h => by
      cases hp : JsonFields.lookup fs k with
      | none =>
          exfalso
          rw [delObjWalk] at h
          · simp [hp] at h
          · exact fun hh => List.noConfusion hh
      | some c =>
          cases c with
          | obj fs' =>
              have h' : delObjWalk (.obj fs') (k' :: t) = true := by
                rw [delObjWalk] at h
                · simp only [hp] at h
                  exact h
                · exact fun hh => List.noConfusion hh
              have hhk : fs.hasKey k = true := by
                rw [hasKey_lookup, hp]
                rfl
              rw [delWalk]
              · simp only [Json.isObjOrArr, if_true, Json.hasProp, hhk,
                  Json.getProp, hp, typeofOptObject, Json.typeofObject,
                  Bool.and_self, if_true]
                rw [delWalk_removes (k' :: t) fs' h']
                have : removeAtO (.obj fs) (k :: k' :: t)
                    = .obj (fs.setField k (removeAtO (.obj fs') (k' :: t))) := by
                  rw [removeAtO]
                  · simp [hp]
                  · exact fun hh => List.noConfusion hh
                rw [this]
                rfl
              · exact fun hh => List.noConfusion hh
          | arr es ps =>
              exfalso
              rw [delObjWalk] at h
              · simp [hp] at h
              · exact fun hh => List.noConfusion hh
          | str s =>
              exfalso
              rw [delObjWalk] at h
              · simp [hp] at h
              · exact fun hh => List.noConfusion hh
          | num n =>
              exfalso
              rw [delObjWalk] at h
              · simp [hp] at h
              · exact fun hh => List.noConfusion hh
          | bool b =>
              exfalso
              rw [delObjWalk] at h
              · simp [hp] at h
              · exact fun hh => List.noConfusion hh
          | null =>
              exfalso
              rw [delObjWalk] at h
              · simp [hp] at h
              · exact fun hh => List.noConfusion hh
          | undef =>
              exfalso
              rw [delObjWalk] at h
              · simp [hp] at h
              · exact fun hh => List.noConfusion hh
          | hole =>
              exfalso
              rw [delObjWalk] at h
              · simp [hp] at h
              · exact fun hh => List.noConfusion hh

theorem lookup_isJsonValue : ∀ (fs : JsonFields) (k : String) (c : Json),
    isJsonFields fs = true → fs.lookup k = some c → isJsonValue c = true
  | .nil, _, _, _, hl => by simp [JsonFields.lookup] at hl
  | .cons a w tl, k, c, hc, hl => by
      simp only [isJsonFields, Bool.and_eq_true] at hc
      obtain ⟨⟨_, h2⟩, h3⟩ := hc
      by_cases ha : a = k
      · rw [JsonFields.lookup, if_pos ha] at hl
        injection hl with hl
        rw [← hl]
        exact h2
      · rw [JsonFields.lookup, if_neg ha] at hl
        exact lookup_isJsonValue tl k c h3 hl

theorem hasKey_setField_ne : ∀ (fs : JsonFields) (k a : String) (v : Json),
    a ≠ k → (fs.setField k v).hasKey a = fs.hasKey a
  | .nil, k, a, v, h => by
      have h' : ¬k = a := fun hh => h hh.symm
      simp [JsonFields.setField, JsonFields.hasKey, h']
  | .cons b w tl, k, a, v, h => by
      by_cases hb : b = k
      · subst hb
        simp [JsonFields.setField, JsonFields.hasKey]
      · simp [JsonFields.setField, JsonFields.hasKey, hb,
          hasKey_setField_ne tl k a v h]

theorem hasKey_removeField_imp : ∀ (fs : JsonFields) (k a : String),
    (fs.removeField k).hasKey a = true → fs.hasKey a = true
  | .nil, _, _, h => by simpa [JsonFields.removeField] using h
  | .cons b w tl, k, a, h => by
      by_cases hb : b = k
      · subst hb
        rw [JsonFields.removeField, if_pos rfl] at h
        simp only [JsonFields.hasKey, Bool.or_eq_true]
        exact Or.inr h
      · rw [JsonFields.removeField, if_neg hb] at h
        simp only [JsonFields.hasKey, Bool.or_eq_true] at h ⊢
        rcases h with h | h
        · exact Or.inl h
        · exact Or.inr (hasKey_removeField_imp tl k a h)

theorem clean_setField : ∀ (fs : JsonFields) (k : String) (v : Json),
    isJsonFields fs = true → isJsonValue v = true →
    isJsonFields (fs.setField k v) = true
  | .nil, k, v, _, hv => by simp [JsonFields.setField, isJsonFields,
      JsonFields.hasKey, hv]
  | .cons a w tl, k, v, hc, hv => by
      simp only [isJsonFields, Bool.and_eq_true] at hc
      obtain ⟨⟨h1, h2⟩, h3⟩ := hc
      by_cases ha : a = k
      · subst ha
        simp [JsonFields.setField, isJsonFields, h1, hv, h3]
      · simp only [JsonFields.setField, if_neg ha, isJsonFields,
          Bool.and_eq_true]
        refine ⟨⟨?_, h2⟩, clean_setField tl k v h3 hv⟩
        rw [hasKey_setField_ne tl k a v ha]
        exact h1
  termination_by fs => sizeOf fs

theorem clean_removeField : ∀ (fs : JsonFields) (k : String),
    isJsonFields fs = true → isJsonFields (fs.removeField k) = true
  | .nil, _, _ => rfl
  | .cons a w tl, k, hc => by
      simp only [isJsonFields, Bool.and_eq_true] at hc
      obtain ⟨⟨h1, h2⟩, h3⟩ := hc
      by_cases ha : a = k
      · subst ha
        rw [JsonFields.removeField, if_pos rfl]
        exact h3
      · rw [JsonFields.removeField, if_neg ha]
        simp only [isJsonFields, Bool.and_eq_true]
        refine ⟨⟨?_, h2⟩, clean_removeField tl k h3⟩
        simp only [Bool.not_eq_true'] at h1 ⊢
        by_cases hr : (tl.removeField k).hasKey a = true
        · rw [hasKey_removeField_imp tl k a hr] at h1
          exact absurd h1 (by simp)
        · simpa using hr

theorem removeAtO_objShape : ∀ (l : List String) (fs : JsonFields),
    ∃ gs, removeAtO (.obj fs) l = .obj gs
  | [], fs => ⟨fs, rfl⟩
  | [k], fs => ⟨fs.removeField k, rfl⟩
  | k :: k' :: t, fs => by
      rw [removeAtO]
      · cases hp : JsonFields.lookup fs k with
        | none => exact ⟨fs, rfl⟩
        | some c => exact ⟨_, rfl⟩
      · exact fun hh => List.noConfusion hh

theorem clean_removeAtO : ∀ (l : List String) (j : Json),
    isJsonValue j = true → isJsonValue (removeAtO j l) = true
  | [], j, h => by
      cases j <;> simpa [removeAtO] using h
  | [k], j, h => by
      cases j with
      | obj fs => simpa [removeAtO, isJsonValue] using clean_removeField fs k h
      | str s => exact h
      | num n => exact h
      | bool b => exact h
      | null => exact h
      | undef => exact h
      | hole => exact h
      | arr es ps => exact h
  | k :: k' :: t, j, h => by
      cases j with
      | obj fs =>
          rw [removeAtO]
          · cases hp : JsonFields.lookup fs k with
            | none => exact h
            | some c =>
                have hc : isJsonValue c = true := lookup_isJsonValue fs k c h hp
                have hrec : isJsonValue (removeAtO c (k' :: t)) = true :=
                  clean_removeAtO (k' :: t) c hc
                simpa [isJsonValue] using clean_setField fs k _ h hrec
          · exact fun hh => List.noConfusion hh
      | str s => exact h
      | num n => exact h
      | bool b => exact h
      | null => exact h
      | undef => exact h
      | hole => exact h
      | arr es ps => exact h

theorem objectKeys_empty_iff (gs : JsonFields) :
    ((Json.obj gs).objectKeys.length == 0) = true ↔ gs = .nil := by
  cases gs with
  | nil => simp [Json.objectKeys, JsonFields.keys]
  | cons k v tl => simp [Json.objectKeys, JsonFields.keys]

theorem getStep_obj (fs : JsonFields) (k : String) :
    getStep (some (.obj fs)) k = fs.lookup k := rfl

theorem delObjWalk_chain : ∀ (segs : List String) (fs : JsonFields)
    (q : List String),
    delObjWalk (.obj fs) segs = true → q ≠ [] → q <+: segs → q ≠ segs →
    ∃ gs, q.foldl getStep (some (.obj fs)) = some (.obj gs)
  | [], _, q, h, _, _, _ => by simp [delObjWalk] at h
  | [k], fs, q, _, hq, hpre, hne => by
      cases q with
      | nil => exact absurd rfl hq
      | cons a q' =>
          rw [List.cons_prefix_cons] at hpre
          obtain ⟨rfl, hpre'⟩ := hpre
          have : q' = [] := List.prefix_nil.mp hpre'
          subst this
          exact absurd rfl hne
  | k :: k' :: t, fs, q, h, hq, hpre, hne => by
      rw [delObjWalk] at h
      · cases hlk : fs.lookup k with
        | none => rw [hlk] at h; simp at h
        | some c =>
            rw [hlk] at h
            cases c with
            | obj fs' =>
                cases q with
                | nil => exact absurd rfl hq
                | cons a q' =>
                    rw [List.cons_prefix_cons] at hpre
                    obtain ⟨rfl, hpre'⟩ := hpre
                    rw [List.foldl_cons, getStep_obj, hlk]
                    cases hq' : q' with
                    | nil => exact ⟨fs', rfl⟩
                    | cons b t' =>
                        rw [← hq']
                        have hne' : q' ≠ k' :: t := fun hh => hne (by rw [hh])
                        exact delObjWalk_chain (k' :: t) fs' q' h
                          (by rw [hq']; exact fun hh => List.noConfusion hh)
                          hpre' hne'
            | str s => simp at h
            | num n => simp at h
            | bool b => simp at h
            | null => simp at h
            | undef => simp at h
            | hole => simp at h
            | arr es ps => simp at h
      · exact fun hh => List.noConfusion hh

theorem resolve_removeAtO_chain : ∀ (ps : List String) (fs : JsonFields)
    (q : List String),
    (∀ q', q' ≠ [] → q' <+: ps → q' ≠ ps →
       ∃ gs, q'.foldl getStep (some (Json.obj fs)) = some (.obj gs)) →
    q ≠ [] → q <+: ps → q ≠ ps →
    ∃ gs, q.foldl getStep (some (removeAtO (.obj fs) ps)) = some (.obj gs)
  | [], _, q, _, hq, hpre, _ => by
      cases q with
      | nil => exact absurd rfl hq
      | cons a q' => exact absurd (List.prefix_nil.mp hpre) (by simp)
  | [k], fs, q, _, hq, hpre, hne => by
      cases q with
      | nil => exact absurd rfl hq
      | cons a q' =>
          rw [List.cons_prefix_cons] at hpre
          obtain ⟨rfl, hpre'⟩ := hpre
          have : q' = [] := List.prefix_nil.mp hpre'
          subst this
          exact absurd rfl hne
  | k :: k' :: t, fs, q, hpp, hq, hpre, hne => by
      obtain ⟨gs1, hgs1⟩ := hpp [k] (by simp)
        ⟨k' :: t, rfl⟩ (by simp)
      rw [List.foldl_cons, List.foldl_nil, getStep_obj] at hgs1
      rw [removeAtO]
      · rw [hgs1]
        cases q with
        | nil => exact absurd rfl hq
        | cons a q' =>
            rw [List.cons_prefix_cons] at hpre
            obtain ⟨rfl, hpre'⟩ := hpre
            rw [List.foldl_cons, getStep_obj, lookup_setField_self]
            cases hq' : q' with
            | nil =>
                obtain ⟨gs2, hgs2⟩ := removeAtO_objShape (k' :: t) gs1
                rw [hgs2]
                exact ⟨gs2, rfl⟩
            | cons b t' =>
                rw [← hq']
                have hne' : q' ≠ k' :: t := fun hh => hne (by rw [hh])
                refine resolve_removeAtO_chain (k' :: t) gs1 q' ?_
                  (by rw [hq']; exact fun hh => List.noConfusion hh) hpre' hne'
                intro q'' hq'' hpre'' hne''
                obtain ⟨gs, hgs⟩ := hpp (a :: q'')
                  (fun hh => List.noConfusion hh)
                  (List.cons_prefix_cons.mpr ⟨rfl, hpre''⟩)
                  (fun hh => hne'' (by injection hh))
                rw [List.foldl_cons, getStep_obj, hgs1] at hgs
                exact ⟨gs, hgs⟩
      · exact fun hh => List.noConfusion hh

theorem resolve_removeAtO_self : ∀ (ps : List String) (fs : JsonFields),
    ps ≠ [] → isJsonFields fs = true →
    (∀ q', q' ≠ [] → q' <+: ps → q' ≠ ps →
       ∃ gs, q'.foldl getStep (some (Json.obj fs)) = some (.obj gs)) →
    ps.foldl getStep (some (removeAtO (.obj fs) ps)) = none
  | [], _, hps, _, _ => absurd rfl hps
  | [k], fs, _, hc, _ => by
      rw [removeAtO, List.foldl_cons, List.foldl_nil, getStep_obj]
      exact lookup_removeField_self fs k hc
  | k :: k' :: t, fs, _, hc, hpp => by
      obtain ⟨gs1, hgs1⟩ := hpp [k] (by simp)
        ⟨k' :: t, rfl⟩ (by simp)
      rw [List.foldl_cons, List.foldl_nil, getStep_obj] at hgs1
      rw [removeAtO]
      · rw [hgs1, List.foldl_cons, getStep_obj, lookup_setField_self]
        have hc1 : isJsonFields gs1 = true := by
          have := lookup_isJsonValue fs k (.obj gs1) hc hgs1
          simpa [isJsonValue] using this
        refine resolve_removeAtO_self (k' :: t) gs1
          (fun hh => List.noConfusion hh) hc1 ?_
        intro q'' hq'' hpre'' hne''
        obtain ⟨gs, hgs⟩ := hpp (k :: q'')
          (fun hh => List.noConfusion hh)
          (List.cons_prefix_cons.mpr ⟨rfl, hpre''⟩)
          (fun hh => hne'' (by injection hh))
        rw [List.foldl_cons, getStep_obj, hgs1] at hgs
        exact ⟨gs, hgs⟩
      · exact fun hh => List.noConfusion hh

theorem resolve_removeAtO_mono : ∀ (ps : List String) (j : Json)
    (q : List String),
    isJsonValue j = true →
    q.foldl getStep (some j) = none →
    q.foldl getStep (some (removeAtO j ps)) = none
  | [], j, q, _, h => by
      cases j <;> simpa [removeAtO] using h
  | [k], j, q, hc, h => by
      cases j with
      | obj fs =>
          rw [removeAtO]
          cases q with
          | nil => simp at h
          | cons a q' =>
              rw [List.foldl_cons, getStep_obj] at h ⊢
              by_cases ha : a = k
              · subst ha
                rw [lookup_removeField_self fs a hc]
                exact foldl_getStep_none q'
              · rw [lookup_removeField_ne fs k a ha]
                exact h
      | str s => exact h
      | num n => exact h
      | bool b => exact h
      | null => exact h
      | undef => exact h
      | hole => exact h
      | arr es ps' => exact h
  | k :: k' :: t, j, q, hc, h => by
      cases j with
      | obj fs =>
          rw [removeAtO]
          · cases hlk : fs.lookup k with
            | none => exact h
            | some c =>
                cases q with
                | nil => simp at h
                | cons a q' =>
                    rw [List.foldl_cons, getStep_obj] at h ⊢
                    by_cases ha : a = k
                    · subst ha
                      rw [lookup_setField_self]
                      rw [hlk] at h
                      exact resolve_removeAtO_mono (k' :: t) c q'
                        (lookup_isJsonValue fs a c hc hlk) h
                    · rw [lookup_setField_ne fs k a _ ha]
                      exact h
          · exact fun hh => List.noConfusion hh
      | str s => exact h
      | num n => exact h
      | bool b => exact h
      | null => exact h
      | undef => exact h
      | hole => exact h
      | arr es ps' => exact h

theorem removeAtO_step (fs : JsonFields) (k k' : String) (t : List String)
    (c : Json) (h : fs.lookup k = some c) :
    removeAtO (.obj fs) (k :: k' :: t) =
      .obj (fs.setField k (removeAtO c (k' :: t))) := by
  rw [removeAtO]
  · rw [h]
  · exact fun hh => List.noConfusion hh

theorem cleanupWalk_char : ∀ (ps : List String) (fs : JsonFields),
    ps ≠ [] →
    (∀ q', q' ≠ [] → q' <+: ps → q' ≠ ps →
       ∃ gs, q'.foldl getStep (some (Json.obj fs)) = some (.obj gs)) →
    ∀ gs : JsonFields,
    ps.foldl getStep (some (Json.obj fs)) = some (.obj gs) →
    (gs = .nil → cleanupWalk (.obj fs) ps = .ok (true, removeAtO (.obj fs) ps)) ∧
    (gs ≠ .nil → cleanupWalk (.obj fs) ps = .ok (false, .obj fs))
  | [], _, hps, _, _, _ => absurd rfl hps
  | [k], fs, _, _, gs, ht => by
      rw [List.foldl_cons, List.foldl_nil, getStep_obj] at ht
      have hbn : ((Json.obj gs) == Json.null) = false := by
        simp
      constructor
      · intro h0
        subst h0
        simp only [cleanupWalk, Json.getProp, ht, Json.typeofObject, hbn,
          Json.objectKeys, JsonFields.keys, List.length_nil, Json.delProp,
          removeAtO]
        rfl
      · intro h0
        have hlen : ((Json.obj gs).objectKeys.length == 0) = false := by
          rw [Bool.eq_false_iff]
          intro hh
          exact h0 ((objectKeys_empty_iff gs).mp hh)
        simp only [cleanupWalk, Json.getProp, ht, Json.typeofObject, hbn,
          hlen]
        rfl
  | k :: k' :: t, fs, _, hpp, gs, ht => by
      obtain ⟨fs1, hfs1⟩ := hpp [k] (by simp) ⟨k' :: t, rfl⟩ (by simp)
      rw [List.foldl_cons, List.foldl_nil, getStep_obj] at hfs1
      rw [List.foldl_cons, getStep_obj, hfs1] at ht
      have hpp1 : ∀ q', q' ≠ [] → q' <+: k' :: t → q' ≠ k' :: t →
          ∃ gs2, q'.foldl getStep (some (Json.obj fs1)) = some (.obj gs2) := by
        intro q'' hq'' hpre'' hne''
        obtain ⟨gs2, hgs2⟩ := hpp (k :: q'') (fun hh => List.noConfusion hh)
          (List.cons_prefix_cons.mpr ⟨rfl, hpre''⟩)
          (fun hh => hne'' (by injection hh))
        rw [List.foldl_cons, getStep_obj, hfs1] at hgs2
        exact ⟨gs2, hgs2⟩
      obtain ⟨hin1, hin2⟩ := cleanupWalk_char (k' :: t) fs1
        (fun hh => List.noConfusion hh) hpp1 gs ht
      constructor
      · intro h0
        simp only [cleanupWalk, Json.getProp, hfs1, Json.typeofObject,
          hin1 h0, if_true, Json.setProp,
          removeAtO_step fs k k' t (.obj fs1) hfs1]
      · intro h0
        simp only [cleanupWalk, Json.getProp, hfs1, Json.typeofObject,
          hin2 h0, if_true, Json.setProp,
          setField_lookup_self fs k (.obj fs1) hfs1]

theorem ancestor_nonempty (q : List String) (k' : String) (j : Json)
    (gsq : JsonFields) (x : Json)
    (hq : q.foldl getStep (some j) = some (.obj gsq))
    (hqk : (q ++ [k']).foldl getStep (some j) = some x) : gsq ≠ .nil := by
  intro hnil
  rw [List.foldl_append, hq] at hqk
  subst hnil
  simp [getStep, Json.truthy, Json.typeofObject, Json.getProp,
    JsonFields.lookup] at hqk

theorem prefix_dropLast (q l : List String) (hpre : q <+: l) (hne : q ≠ l) :
    q <+: l.dropLast := by
  obtain ⟨t, rfl⟩ := hpre
  have ht : t ≠ [] := by
    intro hh
    subst hh
    simp at hne
  rw [List.dropLast_append_of_ne_nil q ht]
  exact ⟨t.dropLast, rfl⟩

theorem cleanupSteps_ok : ∀ (n : Nat) (ps : List String) (root : JsonFields),
    n = ps.length →
    isJsonFields root = true →
    (∀ q, q ≠ [] → q <+: ps →
       ∃ gs, q.foldl getStep (some (Json.obj root)) = some (.obj gs)) →
    ∃ r : JsonFields, cleanupSteps (.obj root) ps n = .ok (.obj r) ∧
      isJsonFields r = true ∧
      (∀ q : List String, q.foldl getStep (some (Json.obj root)) = none →
         q.foldl getStep (some (Json.obj r)) = none) ∧
      (∀ q, q ≠ [] → q <+: ps →
         q.foldl getStep (some (Json.obj r)) = none ∨
         ∃ gs, gs ≠ JsonFields.nil ∧
           q.foldl getStep (some (Json.obj r)) = some (.obj gs))
  | 0, ps, root, hn, hc, _ => by
      have hps : ps = [] := List.length_eq_zero.mp hn.symm
      subst hps
      refine ⟨root, rfl, hc, fun q h => h, ?_⟩
      intro q hq hpre
      exact absurd (List.prefix_nil.mp hpre) hq
  | n + 1, ps, root, hn, hc, h1 => by
      cases ps with
      | nil => simp at hn
      | cons p ps' =>
          obtain ⟨gs, hgs⟩ := h1 (p :: ps') (fun hh => List.noConfusion hh)
            (List.prefix_refl _)
          have hpp : ∀ q', q' ≠ [] → q' <+: p :: ps' → q' ≠ p :: ps' →
              ∃ g, q'.foldl getStep (some (Json.obj root)) = some (.obj g) :=
            fun q' hq' hpre' _ => h1 q' hq' hpre'
          obtain ⟨hw1, hw2⟩ := cleanupWalk_char (p :: ps') root
            (fun hh => List.noConfusion hh) hpp gs hgs
          by_cases hgs0 : gs = JsonFields.nil
          · obtain ⟨R, hR⟩ := removeAtO_objShape (p :: ps') root
            have hcR : isJsonFields R = true := by
              have hcv := clean_removeAtO (p :: ps') (Json.obj root)
                (show isJsonValue (Json.obj root) = true from hc)
              rw [hR] at hcv
              exact hcv
            have hlen : n = (p :: ps').dropLast.length := by
              rw [List.length_dropLast]
              omega
            have h1' : ∀ q, q ≠ [] → q <+: (p :: ps').dropLast →
                ∃ g, q.foldl getStep (some (Json.obj R)) = some (.obj g) := by
              intro q hq hpre
              have hpre2 : q <+: p :: ps' :=
                hpre.trans (List.dropLast_prefix _)
              have hne2 : q ≠ p :: ps' := by
                intro hh
                subst hh
                have hle := List.IsPrefix.length_le hpre
                rw [List.length_dropLast, List.length_cons] at hle
                omega
              obtain ⟨g, hg⟩ := resolve_removeAtO_chain (p :: ps') root q
                hpp hq hpre2 hne2
              rw [hR] at hg
              exact ⟨g, hg⟩
            obtain ⟨r, hr, hcr, hA, hB⟩ := cleanupSteps_ok n
              (p :: ps').dropLast R hlen hcR h1'
            refine ⟨r, ?_, hcr, ?_, ?_⟩
            · simp only [cleanupSteps, hw1 hgs0, hR]
              exact hr
            · intro q hq
              have h2 := resolve_removeAtO_mono (p :: ps') (Json.obj root) q
                (show isJsonValue (Json.obj root) = true from hc) hq
              rw [hR] at h2
              exact hA q h2
            · intro q hq hpre
              by_cases hqps : q = p :: ps'
              · subst hqps
                left
                have h2 := resolve_removeAtO_self (p :: ps') root
                  (fun hh => List.noConfusion hh) hc hpp
                rw [hR] at h2
                exact hA _ h2
              · exact hB q hq (prefix_dropLast q (p :: ps') hpre hqps)
          · refine ⟨root, ?_, hc, fun q h => h, ?_⟩
            · simp only [cleanupSteps, hw2 hgs0]
            · intro q hq hpre
              right
              obtain ⟨gq, hgq⟩ := h1 q hq hpre
              refine ⟨gq, ?_, hgq⟩
              by_cases hqps : q = p :: ps'
              · subst hqps
                rw [hgq] at hgs
                injection hgs with hgs
                injection hgs with hgs
                rw [hgs]
                exact hgs0
              · obtain ⟨t, htq⟩ := hpre
                cases t with
                | nil =>
                    rw [List.append_nil] at htq
                    exact absurd htq hqps
                | cons k0 rest =>
                    have hx1 : (q ++ [k0]) <+: p :: ps' := by
                      refine ⟨rest, ?_⟩
                      rw [List.append_assoc]
                      simpa using htq
                    obtain ⟨x, hx⟩ := h1 (q ++ [k0]) (by simp) hx1
                    exact ancestor_nonempty q k0 (Json.obj root) gq
                      (Json.obj x) hgq hx

theorem deleteNestedValue_eq (j : Json) (path : String) :
    deleteNestedValue j path =
      match delWalk (deepClone j) (splitDot path) with
      | .ok (true, r) => cleanupEmptyObjects r (splitDot path).dropLast
      | .ok (false, r) => .ok r
      | .error e => .error e := rfl

/-- C9: the amended delete/prune behaviour.  Deleting `a.b` from
`{"a":{"b":"x"}}` yields `{}`.  When the locate walk returns early (some
intermediate segment fails the `in`/`typeof` test), the operation is an
error-free no-op returning an unchanged clone.  When the walk reaches the
final `delete` through plain objects, the returned document no longer
resolves the path, and no nonempty prefix of the path resolves to an
empty object — every parent emptied by the deletion (or encountered
already empty) has been pruned away.  The original claim's blanket
promise for every nonexistent path is refuted by the companion
counterexample: a `null` slot on the path throws, and a pre-existing
empty object on the path is pruned rather than preserved. -/
theorem C9_delete_amended :
    deleteNestedValue c9doc "a.b" = .ok (ob []) ∧
    (∀ (F : JsonFields) (path : String),
      isJsonFields F = true →
      delStopsEarly (.obj F) (splitDot path) = true →
      deleteNestedValue (.obj F) path = .ok (.obj F)) ∧
    (∀ (F : JsonFields) (path : String),
      isJsonFields F = true →
      delObjWalk (.obj F) (splitDot path) = true →
      ∃ r : JsonFields,
        deleteNestedValue (.obj F) path = .ok (.obj r) ∧
        getNestedValue (.obj r) path = none ∧
        ∀ q, q ≠ [] → q <+: splitDot path →
          q.foldl getStep (some (Json.obj r)) ≠ some (.obj .nil)) := by
  refine ⟨by decide, ?_, ?_⟩
  · intro F path hcF hstop
    rw [deleteNestedValue_eq,
      deepClone_id (.obj F) (show isJsonValue (Json.obj F) = true from hcF),
      delWalk_stops (splitDot path) F hstop]
  · intro F path hcF hwalk
    have hsegs : splitDot path ≠ [] := splitDot_ne_nil path
    have hpp : ∀ q', q' ≠ [] → q' <+: splitDot path → q' ≠ splitDot path →
        ∃ g, q'.foldl getStep (some (Json.obj F)) = some (.obj g) :=
      fun q' h1 h2 h3 => delObjWalk_chain (splitDot path) F q' hwalk h1 h2 h3
    obtain ⟨R, hR⟩ := removeAtO_objShape (splitDot path) F
    have hcR : isJsonFields R = true := by
      have hcv := clean_removeAtO (splitDot path) (Json.obj F)
        (show isJsonValue (Json.obj F) = true from hcF)
      rw [hR] at hcv
      exact hcv
    have hleaf : (splitDot path).foldl getStep (some (Json.obj R)) = none := by
      have h2 := resolve_removeAtO_self (splitDot path) F hsegs hcF hpp
      rw [hR] at h2
      exact h2
    have h1' : ∀ q, q ≠ [] → q <+: (splitDot path).dropLast →
        ∃ g, q.foldl getStep (some (Json.obj R)) = some (.obj g) := by
      intro q hq hpre
      have hpre2 : q <+: splitDot path := hpre.trans (List.dropLast_prefix _)
      have hne2 : q ≠ splitDot path := by
        intro hh
        subst hh
        have hle := List.IsPrefix.length_le hpre
        rcases List.exists_cons_of_ne_nil hsegs with ⟨a, t, hat⟩
        rw [List.length_dropLast, hat, List.length_cons] at hle
        omega
      obtain ⟨g, hg⟩ := resolve_removeAtO_chain (splitDot path) F q
        hpp hq hpre2 hne2
      rw [hR] at hg
      exact ⟨g, hg⟩
    obtain ⟨r, hr, hcr, hA, hB⟩ := cleanupSteps_ok
      ((splitDot path).dropLast.length) ((splitDot path).dropLast) R rfl hcR h1'
    refine ⟨r, ?_, ?_, ?_⟩
    · rw [deleteNestedValue_eq,
        deepClone_id (.obj F) (show isJsonValue (Json.obj F) = true from hcF),
        delWalk_removes (splitDot path) F hwalk, hR]
      exact hr
    · exact hA _ hleaf
    · intro q hq hpre
      by_cases hqps : q = splitDot path
      · subst hqps
        rw [hA _ hleaf]
        exact fun hh => Option.noConfusion hh
      · rcases hB q hq (prefix_dropLast q (splitDot path) hpre hqps) with
          hnone | ⟨g, hg0, hgq⟩
        · rw [hnone]
          exact fun hh => Option.noConfusion hh
        · rw [hgq]
          intro hh
          injection hh with hh
          injection hh with hh
          exact hg0 hh

/-! ## C5: the flatten/unflatten round trip

Proof companions: `joinDots` re-joins dot-split segments (the inverse of
`splitDot` on dot-free segments), `pathPairsD`/`pathPairsF` are the
segment-level form of the flattened pairs, and `insertSegPairs` is
`unflattenPairs` acting on segment-level pairs.  `noArrDoc` and
`keysNeDoc` state the extra hypotheses of the amended round trip: no
arrays anywhere on the spine and no empty key. -/

/-- Join path segments with `.` separators (`segs.join('.')`). -/
def joinDots : List String → String
  | [] => ""
  | [k] => k
  | k :: k2 :: t => k ++ "." ++ joinDots (k2 :: t)

mutual

/-- No array value anywhere in the document. -/
def noArrDoc : Json → Bool
  | .obj fields => noArrFields fields
  | .arr _ _ => false
  | _ => true

/-- Field-list form of `noArrDoc`. -/
def noArrFields : JsonFields → Bool
  | .nil => true
  | .cons _ v tl => noArrDoc v && noArrFields tl

end

mutual

/-- No key anywhere on the object spine is the empty string. -/
def keysNeDoc : Json → Bool
  | .obj fields => keysNeFields fields
  | _ => true

/-- Field-list form of `keysNeDoc`. -/
def keysNeFields : JsonFields → Bool
  | .nil => true
  | .cons k v tl => !(k == "") && keysNeDoc v && keysNeFields tl

end

mutual

/-- The flattened (segment list, leaf value) pairs of a document, in the
order `getAllKeys` walks it. -/
def pathPairsD : Json → List (List String × Json)
  | .obj fields => pathPairsF fields
  | _ => []

/-- Field-list form of `pathPairsD`: an object value contributes its own
pairs under its key, anything else is a leaf. -/
def pathPairsF : JsonFields → List (List String × Json)
  | .nil => []
  | .cons k v tl =>
      (match v with
       | .obj _ => (pathPairsD v).map fun p => (k :: p.1, p.2)
       | _ => [([k], v)]) ++ pathPairsF tl

end

/-- `unflattenPairs` acting on segment-level pairs. -/
def insertSegPairs (acc : Json) (P : List (List String × Json)) : Json :=
  P.foldl (fun a p => setNestedValue a (joinDots p.1) p.2) acc

theorem splitDotChars_dotfree : ∀ cs : List Char,
    cs.contains '.' = false → splitDotChars cs = [cs]
  | [], _ => rfl
  | c :: rest, h => by
      simp only [List.contains_cons, Bool.or_eq_false_iff] at h
      have hc : ¬c = '.' := by
        intro hh
        subst hh
        simp at h
      rw [splitDotChars, if_neg hc,
        splitDotChars_dotfree rest h.2]

theorem splitDotChars_append : ∀ (k rest : List Char),
    k.contains '.' = false →
    splitDotChars (k ++ '.' :: rest) = k :: splitDotChars rest
  | [], rest, _ => by simp [splitDotChars]
  | c :: k', rest, h => by
      simp only [List.contains_cons, Bool.or_eq_false_iff] at h
      have hc : ¬c = '.' := by
        intro hh
        subst hh
        simp at h
      rw [List.cons_append, splitDotChars, if_neg hc,
        splitDotChars_append k' rest h.2]

theorem splitDot_joinDots : ∀ segs : List String, segs ≠ [] →
    (∀ s ∈ segs, s.data.contains '.' = false) →
    splitDot (joinDots segs) = segs
  | [], h, _ => absurd rfl h
  | [k], _, hdf => by
      rw [joinDots]
      unfold splitDot
      rw [splitDotChars_dotfree k.data (hdf k (by simp))]
      rfl
  | k :: k2 :: t, _, hdf => by
      rw [joinDots]
      unfold splitDot
      rw [String.data_append, String.data_append]
      have hd : ("." : String).data = ['.'] := rfl
      rw [hd, List.append_assoc, List.singleton_append,
        splitDotChars_append k.data _ (hdf k (by simp)), List.map_cons]
      have ih := splitDot_joinDots (k2 :: t) (fun hh => List.noConfusion hh)
        (fun s hs => hdf s (List.mem_cons_of_mem k hs))
      unfold splitDot at ih
      rw [ih]

/-- The joined full key `getAllKeysFields` builds from a prefix and the
remaining segments. -/
def joinPfx (pfx : String) (segs : List String) : String :=
  if pfx = "" then joinDots segs else pfx ++ "." ++ joinDots segs

theorem joinDots_cons (k : String) : ∀ q : List String, q ≠ [] →
    joinDots (k :: q) = k ++ "." ++ joinDots q
  | [], h => absurd rfl h
  | _ :: _, _ => rfl

theorem append_dot_ne_empty (a b : String) : a ++ "." ++ b ≠ "" := by
  intro h
  have hd : (a ++ "." ++ b).data = (a.data ++ ['.']) ++ b.data := by
    rw [String.data_append, String.data_append]
  rw [h] at hd
  simp at hd

theorem joinPfx_single (pfx k : String) :
    joinPfx pfx [k] = if pfx = "" then k else pfx ++ "." ++ k := rfl

theorem joinPfx_cons (pfx k : String) (q : List String) (hq : q ≠ [])
    (hk : pfx = "" → k ≠ "") :
    joinPfx pfx (k :: q) = joinPfx (if pfx = "" then k else pfx ++ "." ++ k) q := by
  rw [joinPfx, joinPfx, joinDots_cons k q hq]
  by_cases hp : pfx = ""
  · simp only [if_pos hp, if_neg (hk hp)]
  · simp only [if_neg hp, if_neg (append_dot_ne_empty pfx k)]
    simp [String.append_assoc]

mutual

theorem pathPairsD_path_ne_nil : ∀ (j : Json) (p : List String × Json),
    p ∈ pathPairsD j → p.1 ≠ []
  | .obj fs, p, hp => pathPairsF_path_ne_nil fs p hp
  | .str _, _, hp => absurd hp (by simp [pathPairsD])
  | .num _, _, hp => absurd hp (by simp [pathPairsD])
  | .bool _, _, hp => absurd hp (by simp [pathPairsD])
  | .null, _, hp => absurd hp (by simp [pathPairsD])
  | .undef, _, hp => absurd hp (by simp [pathPairsD])
  | .hole, _, hp => absurd hp (by simp [pathPairsD])
  | .arr _ _, _, hp => absurd hp (by simp [pathPairsD])

theorem pathPairsF_path_ne_nil : ∀ (fs : JsonFields) (p : List String × Json),
    p ∈ pathPairsF fs → p.1 ≠ []
  | .nil, p, hp => absurd hp (by simp [pathPairsF])
  | .cons k v tl, p, hp => by
      cases v with
      | obj gs =>
          simp only [pathPairsF, List.mem_append] at hp
          rcases hp with hp | hp
          · obtain ⟨q, _, rfl⟩ := List.mem_map.mp hp
            simp
          · exact pathPairsF_path_ne_nil tl p hp
      | str s =>
          simp only [pathPairsF, List.mem_append, List.mem_singleton] at hp
          rcases hp with rfl | hp
          · simp
          · exact pathPairsF_path_ne_nil tl p hp
      | num n =>
          simp only [pathPairsF, List.mem_append, List.mem_singleton] at hp
          rcases hp with rfl | hp
          · simp
          · exact pathPairsF_path_ne_nil tl p hp
      | bool b =>
          simp only [pathPairsF, List.mem_append, List.mem_singleton] at hp
          rcases hp with rfl | hp
          · simp
          · exact pathPairsF_path_ne_nil tl p hp
      | null =>
          simp only [pathPairsF, List.mem_append, List.mem_singleton] at hp
          rcases hp with rfl | hp
          · simp
          · exact pathPairsF_path_ne_nil tl p hp
      | undef =>
          simp only [pathPairsF, List.mem_append, List.mem_singleton] at hp
          rcases hp with rfl | hp
          · simp
          · exact pathPairsF_path_ne_nil tl p hp
      | hole =>
          simp only [pathPairsF, List.mem_append, List.mem_singleton] at hp
          rcases hp with rfl | hp
          · simp
          · exact pathPairsF_path_ne_nil tl p hp
      | arr es ps =>
          simp only [pathPairsF, List.mem_append, List.mem_singleton] at hp
          rcases hp with rfl | hp
          · simp
          · exact pathPairsF_path_ne_nil tl p hp

end

mutual

theorem getAllKeys_pathPairs : ∀ (j : Json) (pfx : String),
    keysNeDoc j = true →
    getAllKeys j pfx = (pathPairsD j).map fun p => joinPfx pfx p.1
  | .obj fs, pfx, hk => getAllKeysFields_pathPairs fs pfx hk
  | .str _, _, _ => rfl
  | .num _, _, _ => rfl
  | .bool _, _, _ => rfl
  | .null, _, _ => rfl
  | .undef, _, _ => rfl
  | .hole, _, _ => rfl
  | .arr _ _, _, _ => rfl

theorem getAllKeysFields_pathPairs : ∀ (fs : JsonFields) (pfx : String),
    keysNeFields fs = true →
    getAllKeysFields fs pfx = (pathPairsF fs).map fun p => joinPfx pfx p.1
  | .nil, _, _ => rfl
  | .cons k v tl, pfx, hk => by
      simp only [keysNeFields, Bool.and_eq_true, Bool.not_eq_true',
        beq_eq_false_iff_ne, ne_eq] at hk
      obtain ⟨⟨hk1, hk2⟩, hk3⟩ := hk
      cases v with
      | obj gs =>
          simp only [getAllKeysFields, pathPairsF, List.map_append,
            getAllKeysFields_pathPairs tl pfx hk3]
          congr 1
          rw [getAllKeys_pathPairs (.obj gs) _ hk2, List.map_map]
          refine List.map_congr_left ?_
          intro p hp
          show joinPfx (if pfx = "" then k else pfx ++ "." ++ k) p.1
              = joinPfx pfx (k :: p.1)
          exact (joinPfx_cons pfx k p.1
            (pathPairsD_path_ne_nil (.obj gs) p hp) fun _ => hk1).symm
      | str s =>
          simp only [getAllKeysFields, pathPairsF, List.map_append,
            List.map_cons, List.map_nil,
            getAllKeysFields_pathPairs tl pfx hk3, joinPfx_single]
      | num n =>
          simp only [getAllKeysFields, pathPairsF, List.map_append,
            List.map_cons, List.map_nil,
            getAllKeysFields_pathPairs tl pfx hk3, joinPfx_single]
      | bool b =>
          simp only [getAllKeysFields, pathPairsF, List.map_append,
            List.map_cons, List.map_nil,
            getAllKeysFields_pathPairs tl pfx hk3, joinPfx_single]
      | null =>
          simp only [getAllKeysFields, pathPairsF, List.map_append,
            List.map_cons, List.map_nil,
            getAllKeysFields_pathPairs tl pfx hk3, joinPfx_single]
      | undef =>
          simp only [getAllKeysFields, pathPairsF, List.map_append,
            List.map_cons, List.map_nil,
            getAllKeysFields_pathPairs tl pfx hk3, joinPfx_single]
      | hole =>
          simp only [getAllKeysFields, pathPairsF, List.map_append,
            List.map_cons, List.map_nil,
            getAllKeysFields_pathPairs tl pfx hk3, joinPfx_single]
      | arr es ps =>
          simp only [getAllKeysFields, pathPairsF, List.map_append,
            List.map_cons, List.map_nil,
            getAllKeysFields_pathPairs tl pfx hk3, joinPfx_single]

end

theorem pathPairsF_cons (k : String) (v : Json) (tl : JsonFields) :
    pathPairsF (.cons k v tl) =
      (match v with
       | .obj _ => (pathPairsD v).map fun p => (k :: p.1, p.2)
       | _ => [([k], v)]) ++ pathPairsF tl := by
  cases v <;> rfl

theorem noArr_lookup : ∀ (fs : JsonFields) (k : String) (c : Json),
    noArrFields fs = true → fs.lookup k = some c → noArrDoc c = true
  | .nil, _, _, _, hl => by simp [JsonFields.lookup] at hl
  | .cons a w tl, k, c, hc, hl => by
      simp only [noArrFields, Bool.and_eq_true] at hc
      by_cases ha : a = k
      · rw [JsonFields.lookup, if_pos ha] at hl
        injection hl with hl
        rw [← hl]
        exact hc.1
      · rw [JsonFields.lookup, if_neg ha] at hl
        exact noArr_lookup tl k c hc.2 hl

theorem pathPairs_singleton_props (k : String) (v : Json)
    (p : List String × Json) (hp : p ∈ [([k], v)])
    (hdk : k.data.contains '.' = false)
    (hv : isJsonValue v = true) (hnv : noArrDoc v = true) :
    (∀ s ∈ p.1, s.data.contains '.' = false) ∧
    isJsonValue p.2 = true ∧ noArrDoc p.2 = true := by
  rw [List.mem_singleton] at hp
  subst hp
  refine ⟨?_, hv, hnv⟩
  intro s hs
  rw [List.mem_singleton] at hs
  subst hs
  exact hdk

mutual

theorem pathPairsD_props : ∀ (j : Json) (p : List String × Json),
    isJsonValue j = true → dotFreeDoc j = true → noArrDoc j = true →
    p ∈ pathPairsD j →
    (∀ s ∈ p.1, s.data.contains '.' = false) ∧
    isJsonValue p.2 = true ∧ noArrDoc p.2 = true
  | .obj fs, p, hc, hdf, hna, hp => pathPairsF_props fs p hc hdf hna hp
  | .str _, _, _, _, _, hp => absurd hp (by simp [pathPairsD])
  | .num _, _, _, _, _, hp => absurd hp (by simp [pathPairsD])
  | .bool _, _, _, _, _, hp => absurd hp (by simp [pathPairsD])
  | .null, _, _, _, _, hp => absurd hp (by simp [pathPairsD])
  | .undef, _, _, _, _, hp => absurd hp (by simp [pathPairsD])
  | .hole, _, _, _, _, hp => absurd hp (by simp [pathPairsD])
  | .arr _ _, _, _, _, _, hp => absurd hp (by simp [pathPairsD])

theorem pathPairsF_props : ∀ (fs : JsonFields) (p : List String × Json),
    isJsonFields fs = true → dotFreeFields fs = true → noArrFields fs = true →
    p ∈ pathPairsF fs →
    (∀ s ∈ p.1, s.data.contains '.' = false) ∧
    isJsonValue p.2 = true ∧ noArrDoc p.2 = true
  | .nil, _, _, _, _, hp => absurd hp (by simp [pathPairsF])
  | .cons k v tl, p, hc, hdf, hna, hp => by
      simp only [isJsonFields, Bool.and_eq_true] at hc
      simp only [dotFreeFields, Bool.and_eq_true, Bool.not_eq_true'] at hdf
      simp only [noArrFields, Bool.and_eq_true] at hna
      rw [pathPairsF_cons, List.mem_append] at hp
      rcases hp with hp | hp
      · cases v with
        | obj gs =>
            obtain ⟨q, hq, rfl⟩ := List.mem_map.mp hp
            obtain ⟨hdq, hvq, hnq⟩ :=
              pathPairsD_props (.obj gs) q hc.1.2 hdf.1.2 hna.1 hq
            refine ⟨?_, hvq, hnq⟩
            intro s hs
            rcases List.mem_cons.mp hs with rfl | hs
            · exact hdf.1.1
            · exact hdq s hs
        | str s' => exact pathPairs_singleton_props k _ p hp hdf.1.1 hc.1.2 hna.1
        | num n => exact pathPairs_singleton_props k _ p hp hdf.1.1 hc.1.2 hna.1
        | bool b => exact pathPairs_singleton_props k _ p hp hdf.1.1 hc.1.2 hna.1
        | null => exact pathPairs_singleton_props k _ p hp hdf.1.1 hc.1.2 hna.1
        | undef => exact pathPairs_singleton_props k _ p hp hdf.1.1 hc.1.2 hna.1
        | hole => exact pathPairs_singleton_props k _ p hp hdf.1.1 hc.1.2 hna.1
        | arr es ps => exact pathPairs_singleton_props k _ p hp hdf.1.1 hc.1.2 hna.1
      · exact pathPairsF_props tl p hc.2 hdf.2 hna.2 hp

end

theorem pathPairsF_headKey : ∀ (fs : JsonFields) (p : List String × Json),
    p ∈ pathPairsF fs → ∃ k q, p.1 = k :: q ∧ fs.hasKey k = true
  | .nil, _, hp => absurd hp (by simp [pathPairsF])
  | .cons k v tl, p, hp => by
      rw [pathPairsF_cons, List.mem_append] at hp
      rcases hp with hp | hp
      · cases v with
        | obj gs =>
            obtain ⟨q, _, rfl⟩ := List.mem_map.mp hp
            exact ⟨k, q.1, rfl, by simp [JsonFields.hasKey]⟩
        | str s' =>
            rw [List.mem_singleton] at hp
            subst hp
            exact ⟨k, [], rfl, by simp [JsonFields.hasKey]⟩
        | num n =>
            rw [List.mem_singleton] at hp
            subst hp
            exact ⟨k, [], rfl, by simp [JsonFields.hasKey]⟩
        | bool b =>
            rw [List.mem_singleton] at hp
            subst hp
            exact ⟨k, [], rfl, by simp [JsonFields.hasKey]⟩
        | null =>
            rw [List.mem_singleton] at hp
            subst hp
            exact ⟨k, [], rfl, by simp [JsonFields.hasKey]⟩
        | undef =>
            rw [List.mem_singleton] at hp
            subst hp
            exact ⟨k, [], rfl, by simp [JsonFields.hasKey]⟩
        | hole =>
            rw [List.mem_singleton] at hp
            subst hp
            exact ⟨k, [], rfl, by simp [JsonFields.hasKey]⟩
        | arr es ps =>
            rw [List.mem_singleton] at hp
            subst hp
            exact ⟨k, [], rfl, by simp [JsonFields.hasKey]⟩
      · obtain ⟨k', q', h1, h2⟩ := pathPairsF_headKey tl p hp
        exact ⟨k', q', h1, by simp [JsonFields.hasKey, h2]⟩

theorem pathPairsF_resolve : ∀ (fs : JsonFields) (segs : List String) (v : Json),
    isJsonFields fs = true → (segs, v) ∈ pathPairsF fs →
    segs.foldl getStep (some (.obj fs)) = some v
  | .nil, _, _, _, hp => absurd hp (by simp [pathPairsF])
  | .cons k w tl, segs, v, hc, hp => by
      simp only [isJsonFields, Bool.and_eq_true, Bool.not_eq_true'] at hc
      rw [pathPairsF_cons, List.mem_append] at hp
      rcases hp with hp | hp
      · cases w with
        | obj gs =>
            obtain ⟨q, hq, heq⟩ := List.mem_map.mp hp
            rw [Prod.mk.injEq] at heq
            obtain ⟨h1, h2⟩ := heq
            subst h1
            subst h2
            rw [List.foldl_cons, getStep_obj, JsonFields.lookup, if_pos rfl]
            exact pathPairsF_resolve gs q.1 q.2
              (show isJsonFields gs = true from hc.1.2) hq
        | str s' =>
            rw [List.mem_singleton, Prod.mk.injEq] at hp
            obtain ⟨h1, h2⟩ := hp
            subst h1
            subst h2
            rw [List.foldl_cons, List.foldl_nil, getStep_obj,
              JsonFields.lookup, if_pos rfl]
        | num n =>
            rw [List.mem_singleton, Prod.mk.injEq] at hp
            obtain ⟨h1, h2⟩ := hp
            subst h1
            subst h2
            rw [List.foldl_cons, List.foldl_nil, getStep_obj,
              JsonFields.lookup, if_pos rfl]
        | bool b =>
            rw [List.mem_singleton, Prod.mk.injEq] at hp
            obtain ⟨h1, h2⟩ := hp
            subst h1
            subst h2
            rw [List.foldl_cons, List.foldl_nil, getStep_obj,
              JsonFields.lookup, if_pos rfl]
        | null =>
            rw [List.mem_singleton, Prod.mk.injEq] at hp
            obtain ⟨h1, h2⟩ := hp
            subst h1
            subst h2
            rw [List.foldl_cons, List.foldl_nil, getStep_obj,
              JsonFields.lookup, if_pos rfl]
        | undef =>
            rw [List.mem_singleton, Prod.mk.injEq] at hp
            obtain ⟨h1, h2⟩ := hp
            subst h1
            subst h2
            rw [List.foldl_cons, List.foldl_nil, getStep_obj,
              JsonFields.lookup, if_pos rfl]
        | hole =>
            rw [List.mem_singleton, Prod.mk.injEq] at hp
            obtain ⟨h1, h2⟩ := hp
            subst h1
            subst h2
            rw [List.foldl_cons, List.foldl_nil, getStep_obj,
              JsonFields.lookup, if_pos rfl]
        | arr es ps =>
            rw [List.mem_singleton, Prod.mk.injEq] at hp
            obtain ⟨h1, h2⟩ := hp
            subst h1
            subst h2
            rw [List.foldl_cons, List.foldl_nil, getStep_obj,
              JsonFields.lookup, if_pos rfl]
      · obtain ⟨k', q', h1, h2⟩ := pathPairsF_headKey tl (segs, v) hp
        simp only at h1
        subst h1
        have hkk : ¬k = k' := by
          intro hh
          subst hh
          rw [h2] at hc
          simp at hc
        have ih := pathPairsF_resolve tl (k' :: q') v hc.2 hp
        rw [List.foldl_cons, getStep_obj] at ih ⊢
        rw [JsonFields.lookup, if_neg hkk]
        exact ih

theorem flattenDoc_pairs (F : JsonFields)
    (hc : isJsonFields F = true) (hdf : dotFreeFields F = true)
    (hna : noArrFields F = true) (hne : keysNeFields F = true) :
    flattenDoc (.obj F) = (pathPairsF F).map fun p => (joinDots p.1, p.2) := by
  unfold flattenDoc
  rw [getAllKeys_pathPairs (.obj F) ""
    (show keysNeDoc (.obj F) = true from hne), List.map_map]
  refine List.map_congr_left ?_
  intro p hp
  obtain ⟨hdp, _, _⟩ := pathPairsF_props F p hc hdf hna hp
  have hnn : p.1 ≠ [] := pathPairsF_path_ne_nil F p hp
  have hres : getNestedValue (.obj F) (joinDots p.1) = some p.2 := by
    unfold getNestedValue
    rw [splitDot_joinDots p.1 hnn hdp]
    exact pathPairsF_resolve F p.1 p.2 hc hp
  show (joinPfx "" p.1, (getNestedValue (.obj F) (joinPfx "" p.1)).getD .null)
      = (joinDots p.1, p.2)
  rw [show joinPfx "" p.1 = joinDots p.1 from if_pos rfl, hres]
  rfl

theorem setField_setField : ∀ (fs : JsonFields) (k : String) (v w : Json),
    (fs.setField k v).setField k w = fs.setField k w
  | .nil, k, v, w => by simp [JsonFields.setField]
  | .cons a u tl, k, v, w => by
      by_cases ha : a = k
      · subst ha
        simp [JsonFields.setField]
      · simp only [JsonFields.setField, if_neg ha]
        rw [setField_setField tl k v w]

theorem setField_append : ∀ (fs : JsonFields) (k : String) (v : Json),
    fs.hasKey k = false → fs.setField k v = fs.append (.cons k v .nil)
  | .nil, _, _, _ => rfl
  | .cons a u tl, k, v, h => by
      simp only [JsonFields.hasKey, Bool.or_eq_false_iff,
        decide_eq_false_iff_not] at h
      rw [JsonFields.setField, if_neg h.1, JsonFields.append,
        setField_append tl k v h.2]

theorem append_nil_fields : ∀ fs : JsonFields, fs.append .nil = fs
  | .nil => rfl
  | .cons k v tl => by rw [JsonFields.append, append_nil_fields tl]

theorem append_cons_mid : ∀ (A : JsonFields) (k : String) (v : Json)
    (tl : JsonFields),
    (A.append (.cons k v .nil)).append tl = A.append (.cons k v tl)
  | .nil, _, _, _ => rfl
  | .cons a u A', k, v, tl => by
      rw [JsonFields.append, JsonFields.append, JsonFields.append,
        append_cons_mid A' k v tl]

theorem pathPairsF_ne_nil : ∀ fs : JsonFields,
    noEmptyFields fs = true → fs ≠ .nil → pathPairsF fs ≠ []
  | .nil, _, h => absurd rfl h
  | .cons k v tl, hne, _ => by
      rw [pathPairsF_cons]
      cases v with
      | obj gs =>
          simp only [noEmptyFields, Bool.and_eq_true, Bool.not_eq_true',
            beq_eq_false_iff_ne, ne_eq] at hne
          have h2 := pathPairsF_ne_nil gs
            (show noEmptyFields gs = true from hne.1.2) hne.1.1
          intro hh
          rw [List.append_eq_nil] at hh
          exact h2 (List.map_eq_nil_iff.mp hh.1)
      | str s => simp
      | num n => simp
      | bool b => simp
      | null => simp
      | undef => simp
      | hole => simp
      | arr es ps => simp

theorem noArr_setField : ∀ (fs : JsonFields) (k : String) (v : Json),
    noArrFields fs = true → noArrDoc v = true →
    noArrFields (fs.setField k v) = true
  | .nil, k, v, _, hv => by simp [JsonFields.setField, noArrFields, hv]
  | .cons a w tl, k, v, hc, hv => by
      simp only [noArrFields, Bool.and_eq_true] at hc
      by_cases ha : a = k
      · subst ha
        simp [JsonFields.setField, noArrFields, hv, hc.2]
      · simp only [JsonFields.setField, if_neg ha, noArrFields,
          Bool.and_eq_true]
        exact ⟨hc.1, noArr_setField tl k v hc.2 hv⟩

theorem setWalk_descend (fs B : JsonFields) (k : String) (v : Json) :
    ∀ rest : List String, rest ≠ [] → fs.lookup k = some (.obj B) →
    setWalk (.obj fs) (k :: rest) v
      = .obj (fs.setField k (setWalk (.obj B) rest v))
  | [], h, _ => absurd rfl h
  | r :: t, _, hl => by
      rw [setWalk]
      · simp only [Json.getProp, hl]
        rfl
      · exact fun hh => List.noConfusion hh

theorem setWalk_cons_fresh (fs : JsonFields) (k : String) (v : Json)
    (r : String) (t : List String)
    (h1 : ∀ B, fs.lookup k ≠ some (.obj B))
    (h2 : ∀ es ps, fs.lookup k ≠ some (.arr es ps)) :
    setWalk (.obj fs) (k :: r :: t) v
      = .obj (fs.setField k (setWalk (.obj .nil) (r :: t) v)) := by
  rw [setWalk]
  · simp only [Json.getProp]
    cases hl : fs.lookup k with
    | none => rfl
    | some c =>
        cases c with
        | obj B => exact (h1 B hl).elim
        | arr es ps => exact (h2 es ps hl).elim
        | str s => rfl
        | num n => rfl
        | bool b => rfl
        | null => rfl
        | undef => rfl
        | hole => rfl
  · exact fun hh => List.noConfusion hh

theorem setWalk_clean : ∀ (segs : List String) (fs : JsonFields) (v : Json),
    isJsonFields fs = true → noArrFields fs = true →
    isJsonValue v = true → noArrDoc v = true →
    ∃ gs, setWalk (.obj fs) segs v = .obj gs ∧
      isJsonFields gs = true ∧ noArrFields gs = true
  | [], fs, _, hc, hn, _, _ => ⟨fs, rfl, hc, hn⟩
  | [k], fs, v, hc, hn, hv, hnv =>
      ⟨fs.setField k v, rfl, clean_setField fs k v hc hv,
        noArr_setField fs k v hn hnv⟩
  | k :: r :: t, fs, v, hc, hn, hv, hnv => by
      cases hl : fs.lookup k with
      | some c =>
          cases c with
          | obj B =>
              obtain ⟨gs, h1, h2, h3⟩ := setWalk_clean (r :: t) B v
                (show isJsonFields B = true from
                  lookup_isJsonValue fs k _ hc hl)
                (show noArrFields B = true from noArr_lookup fs k _ hn hl)
                hv hnv
              refine ⟨fs.setField k (.obj gs), ?_,
                clean_setField fs k _ hc h2, noArr_setField fs k _ hn h3⟩
              rw [setWalk_descend fs B k v (r :: t) (by simp) hl, h1]
          | arr es ps =>
              exfalso
              have := noArr_lookup fs k _ hn hl
              simp [noArrDoc] at this
          | str s =>
              obtain ⟨gs, h1, h2, h3⟩ :=
                setWalk_clean (r :: t) .nil v rfl rfl hv hnv
              refine ⟨fs.setField k (.obj gs), ?_,
                clean_setField fs k _ hc h2, noArr_setField fs k _ hn h3⟩
              rw [setWalk_cons_fresh fs k v r t (by simp [hl]) (by simp [hl]),
                h1]
          | num n =>
              obtain ⟨gs, h1, h2, h3⟩ :=
                setWalk_clean (r :: t) .nil v rfl rfl hv hnv
              refine ⟨fs.setField k (.obj gs), ?_,
                clean_setField fs k _ hc h2, noArr_setField fs k _ hn h3⟩
              rw [setWalk_cons_fresh fs k v r t (by simp [hl]) (by simp [hl]),
                h1]
          | bool b =>
              obtain ⟨gs, h1, h2, h3⟩ :=
                setWalk_clean (r :: t) .nil v rfl rfl hv hnv
              refine ⟨fs.setField k (.obj gs), ?_,
                clean_setField fs k _ hc h2, noArr_setField fs k _ hn h3⟩
              rw [setWalk_cons_fresh fs k v r t (by simp [hl]) (by simp [hl]),
                h1]
          | null =>
              obtain ⟨gs, h1, h2, h3⟩ :=
                setWalk_clean (r :: t) .nil v rfl rfl hv hnv
              refine ⟨fs.setField k (.obj gs), ?_,
                clean_setField fs k _ hc h2, noArr_setField fs k _ hn h3⟩
              rw [setWalk_cons_fresh fs k v r t (by simp [hl]) (by simp [hl]),
                h1]
          | undef =>
              obtain ⟨gs, h1, h2, h3⟩ :=
                setWalk_clean (r :: t) .nil v rfl rfl hv hnv
              refine ⟨fs.setField k (.obj gs), ?_,
                clean_setField fs k _ hc h2, noArr_setField fs k _ hn h3⟩
              rw [setWalk_cons_fresh fs k v r t (by simp [hl]) (by simp [hl]),
                h1]
          | hole =>
              obtain ⟨gs, h1, h2, h3⟩ :=
                setWalk_clean (r :: t) .nil v rfl rfl hv hnv
              refine ⟨fs.setField k (.obj gs), ?_,
                clean_setField fs k _ hc h2, noArr_setField fs k _ hn h3⟩
              rw [setWalk_cons_fresh fs k v r t (by simp [hl]) (by simp [hl]),
                h1]
      | none =>
          obtain ⟨gs, h1, h2, h3⟩ :=
            setWalk_clean (r :: t) .nil v rfl rfl hv hnv
          refine ⟨fs.setField k (.obj gs), ?_,
            clean_setField fs k _ hc h2, noArr_setField fs k _ hn h3⟩
          rw [setWalk_cons_fresh fs k v r t (by simp [hl]) (by simp [hl]), h1]

theorem insertSegPairs_nil (acc : Json) : insertSegPairs acc [] = acc := rfl

theorem insertSegPairs_cons (acc : Json) (p : List String × Json)
    (P : List (List String × Json)) :
    insertSegPairs acc (p :: P)
      = insertSegPairs (setNestedValue acc (joinDots p.1) p.2) P := rfl

theorem insertSegPairs_append (acc : Json) (X Y : List (List String × Json)) :
    insertSegPairs acc (X ++ Y) = insertSegPairs (insertSegPairs acc X) Y :=
  List.foldl_append _ _ _ _

theorem setNested_seg (A : JsonFields) (segs : List String) (v : Json)
    (hcA : isJsonFields A = true) (hsegs : segs ≠ [])
    (hdf : ∀ s ∈ segs, s.data.contains '.' = false) :
    setNestedValue (.obj A) (joinDots segs) v = setWalk (.obj A) segs v := by
  unfold setNestedValue
  rw [deepClone_id (.obj A) (show isJsonValue (Json.obj A) = true from hcA),
    splitDot_joinDots segs hsegs hdf]

theorem insertSegPairs_single (A : JsonFields) (k : String) (v : Json)
    (hcA : isJsonFields A = true) (hk : k.data.contains '.' = false) :
    insertSegPairs (.obj A) [([k], v)] = .obj (A.setField k v) := by
  rw [insertSegPairs_cons, insertSegPairs_nil,
    setNested_seg A [k] v hcA (by simp) ?_]
  · rfl
  · intro s hs
    rw [List.mem_singleton] at hs
    subst hs
    exact hk

/-- Paths nonempty and dot-free, values parsed-JSON and array-free: the
shape `pathPairsF` guarantees on a well-formed document. -/
def goodPairs (P : List (List String × Json)) : Prop :=
  ∀ p ∈ P, p.1 ≠ [] ∧ (∀ s ∈ p.1, s.data.contains '.' = false) ∧
    isJsonValue p.2 = true ∧ noArrDoc p.2 = true

theorem insertSegPairs_lift : ∀ (P : List (List String × Json)),
    goodPairs P → ∀ (A B : JsonFields) (k : String),
    k.data.contains '.' = false →
    isJsonFields A = true → noArrFields A = true →
    A.lookup k = some (.obj B) →
    insertSegPairs (.obj A) (P.map fun p => (k :: p.1, p.2))
      = .obj (A.setField k (insertSegPairs (.obj B) P))
  | [], _, A, B, k, _, _, _, hl => by
      rw [List.map_nil, insertSegPairs_nil, insertSegPairs_nil,
        setField_lookup_self A k (.obj B) hl]
  | p :: P', hP, A, B, k, hk, hcA, hnA, hl => by
      obtain ⟨hp1, hp2, hp3, hp4⟩ := hP p (by simp)
      have hP' : goodPairs P' := fun q hq => hP q (by simp [hq])
      have hcB : isJsonFields B = true := lookup_isJsonValue A k _ hcA hl
      have hnB : noArrFields B = true := noArr_lookup A k _ hnA hl
      obtain ⟨B1, hB1, hcB1, hnB1⟩ := setWalk_clean p.1 B p.2 hcB hnB hp3 hp4
      have hdf' : ∀ s ∈ (k :: p.1), s.data.contains '.' = false := by
        intro s hs
        rcases List.mem_cons.mp hs with rfl | hs
        · exact hk
        · exact hp2 s hs
      have hstep : setNestedValue (.obj A) (joinDots (k :: p.1)) p.2
          = setWalk (.obj A) (k :: p.1) p.2 :=
        setNested_seg A (k :: p.1) p.2 hcA (by simp) hdf'
      have hsw : setWalk (.obj A) (k :: p.1) p.2
          = .obj (A.setField k (setWalk (.obj B) p.1 p.2)) :=
        setWalk_descend A B k p.2 p.1 hp1 hl
      rw [List.map_cons, insertSegPairs_cons]
      simp only
      rw [hstep, hsw, hB1]
      rw [insertSegPairs_lift P' hP' (A.setField k (.obj B1)) B1 k hk
        (clean_setField A k _ hcA hcB1) (noArr_setField A k _ hnA hnB1)
        (lookup_setField_self A k _)]
      rw [setField_setField]
      have hin : insertSegPairs (.obj B) (p :: P')
          = insertSegPairs (.obj B1) P' := by
        rw [insertSegPairs_cons, setNested_seg B p.1 p.2 hcB hp1 hp2, hB1]
      rw [hin]

theorem insertSegPairs_newslot : ∀ (P : List (List String × Json)),
    goodPairs P → P ≠ [] → ∀ (A : JsonFields) (k : String),
    k.data.contains '.' = false →
    isJsonFields A = true → noArrFields A = true →
    A.lookup k = none →
    insertSegPairs (.obj A) (P.map fun p => (k :: p.1, p.2))
      = .obj (A.setField k (insertSegPairs (.obj .nil) P))
  | [], _, hne, _, _, _, _, _, _ => absurd rfl hne
  | p :: P', hP, _, A, k, hk, hcA, hnA, hl => by
      obtain ⟨hp1, hp2, hp3, hp4⟩ := hP p (by simp)
      have hP' : goodPairs P' := fun q hq => hP q (by simp [hq])
      obtain ⟨B1, hB1, hcB1, hnB1⟩ := setWalk_clean p.1 .nil p.2 rfl rfl hp3 hp4
      have hdf' : ∀ s ∈ (k :: p.1), s.data.contains '.' = false := by
        intro s hs
        rcases List.mem_cons.mp hs with rfl | hs
        · exact hk
        · exact hp2 s hs
      have hstep : setNestedValue (.obj A) (joinDots (k :: p.1)) p.2
          = setWalk (.obj A) (k :: p.1) p.2 :=
        setNested_seg A (k :: p.1) p.2 hcA (by simp) hdf'
      have hsw : setWalk (.obj A) (k :: p.1) p.2
          = .obj (A.setField k (setWalk (.obj .nil) p.1 p.2)) := by
        cases hq : p.1 with
        | nil => exact absurd hq hp1
        | cons r t =>
            exact setWalk_cons_fresh A k p.2 r t (by simp [hl]) (by simp [hl])
      rw [List.map_cons, insertSegPairs_cons]
      simp only
      rw [hstep, hsw, hB1]
      rw [insertSegPairs_lift P' hP' (A.setField k (.obj B1)) B1 k hk
        (clean_setField A k _ hcA hcB1) (noArr_setField A k _ hnA hnB1)
        (lookup_setField_self A k _)]
      rw [setField_setField]
      have hin : insertSegPairs (.obj JsonFields.nil) (p :: P')
          = insertSegPairs (.obj B1) P' := by
        rw [insertSegPairs_cons, setNested_seg .nil p.1 p.2 rfl hp1 hp2, hB1]
      rw [hin]

theorem insertSegPairs_main : ∀ (F A : JsonFields),
    isJsonFields F = true → dotFreeFields F = true →
    noEmptyFields F = true → noArrFields F = true →
    isJsonFields A = true → noArrFields A = true →
    (∀ k, F.hasKey k = true → A.hasKey k = false) →
    insertSegPairs (.obj A) (pathPairsF F) = .obj (A.append F)
  | .nil, A, _, _, _, _, _, _, _ => by
      rw [show pathPairsF .nil = [] from rfl, insertSegPairs_nil,
        append_nil_fields]
  | .cons k v tl, A, hc, hdf, hne, hna, hcA, hnA, hdisj => by
      simp only [isJsonFields, Bool.and_eq_true] at hc
      simp only [dotFreeFields, Bool.and_eq_true, Bool.not_eq_true'] at hdf
      simp only [noArrFields, Bool.and_eq_true] at hna
      have hk : k.data.contains '.' = false := hdf.1.1
      have hAk : A.hasKey k = false := hdisj k (by simp [JsonFields.hasKey])
      have hkeytl : ∀ k', tl.hasKey k' = true → ¬k' = k := by
        intro k' hk' hh
        subst hh
        have := hc.1.1
        rw [hk'] at this
        simp at this
      cases v with
      | obj gs =>
          rw [show pathPairsF (JsonFields.cons k (Json.obj gs) tl)
              = ((pathPairsF gs).map fun p => (k :: p.1, p.2))
                ++ pathPairsF tl from rfl]
          simp only [noEmptyFields, Bool.and_eq_true, Bool.not_eq_true',
            beq_eq_false_iff_ne, ne_eq] at hne
          have hcgs : isJsonFields gs = true := hc.1.2
          have hdfgs : dotFreeFields gs = true := hdf.1.2
          have hnegs : noEmptyFields gs = true := hne.1.2
          have hnags : noArrFields gs = true := hna.1
          have hPgood : goodPairs (pathPairsF gs) := by
            intro q hq
            have h := pathPairsF_props gs q hcgs hdfgs hnags hq
            exact ⟨pathPairsF_path_ne_nil gs q hq, h.1, h.2.1, h.2.2⟩
          have hnn := pathPairsF_ne_nil gs hnegs hne.1.1
          rw [insertSegPairs_append,
            insertSegPairs_newslot (pathPairsF gs) hPgood hnn A k hk hcA hnA
              (lookup_of_hasKey_eq_false A k hAk),
            insertSegPairs_main gs .nil hcgs hdfgs hnegs hnags rfl rfl
              (fun _ _ => rfl)]
          have hdisj1 : ∀ k', tl.hasKey k' = true →
              (A.setField k (.obj (JsonFields.nil.append gs))).hasKey k'
                = false := by
            intro k' hk'
            rw [hasKey_setField_ne A k k' _ (hkeytl k' hk')]
            exact hdisj k' (by simp [JsonFields.hasKey, hk'])
          rw [insertSegPairs_main tl (A.setField k (.obj (JsonFields.nil.append gs)))
            hc.2 hdf.2 hne.2 hna.2
            (clean_setField A k _ hcA (show isJsonValue (Json.obj gs) = true from hcgs))
            (noArr_setField A k _ hnA (show noArrDoc (Json.obj gs) = true from hnags))
            hdisj1]
          rw [show JsonFields.nil.append gs = gs from rfl,
            setField_append A k _ hAk, append_cons_mid]
      | str s =>
          rw [show pathPairsF (JsonFields.cons k (Json.str s) tl)
              = [([k], Json.str s)] ++ pathPairsF tl from rfl]
          simp only [noEmptyFields, Bool.and_eq_true, Bool.true_and] at hne
          have hdisj1 : ∀ k', tl.hasKey k' = true →
              (A.setField k (Json.str s)).hasKey k' = false := by
            intro k' hk'
            rw [hasKey_setField_ne A k k' _ (hkeytl k' hk')]
            exact hdisj k' (by simp [JsonFields.hasKey, hk'])
          rw [insertSegPairs_append, insertSegPairs_single A k _ hcA hk,
            insertSegPairs_main tl (A.setField k _) hc.2 hdf.2 hne.2 hna.2
              (clean_setField A k _ hcA hc.1.2)
              (noArr_setField A k _ hnA hna.1) hdisj1,
            setField_append A k _ hAk, append_cons_mid]
      | num n =>
          rw [show pathPairsF (JsonFields.cons k (Json.num n) tl)
              = [([k], Json.num n)] ++ pathPairsF tl from rfl]
          simp only [noEmptyFields, Bool.and_eq_true, Bool.true_and] at hne
          have hdisj1 : ∀ k', tl.hasKey k' = true →
              (A.setField k (Json.num n)).hasKey k' = false := by
            intro k' hk'
            rw [hasKey_setField_ne A k k' _ (hkeytl k' hk')]
            exact hdisj k' (by simp [JsonFields.hasKey, hk'])
          rw [insertSegPairs_append, insertSegPairs_single A k _ hcA hk,
            insertSegPairs_main tl (A.setField k _) hc.2 hdf.2 hne.2 hna.2
              (clean_setField A k _ hcA hc.1.2)
              (noArr_setField A k _ hnA hna.1) hdisj1,
            setField_append A k _ hAk, append_cons_mid]
      | bool b =>
          rw [show pathPairsF (JsonFields.cons k (Json.bool b) tl)
              = [([k], Json.bool b)] ++ pathPairsF tl from rfl]
          simp only [noEmptyFields, Bool.and_eq_true, Bool.true_and] at hne
          have hdisj1 : ∀ k', tl.hasKey k' = true →
              (A.setField k (Json.bool b)).hasKey k' = false := by
            intro k' hk'
            rw [hasKey_setField_ne A k k' _ (hkeytl k' hk')]
            exact hdisj k' (by simp [JsonFields.hasKey, hk'])
          rw [insertSegPairs_append, insertSegPairs_single A k _ hcA hk,
            insertSegPairs_main tl (A.setField k _) hc.2 hdf.2 hne.2 hna.2
              (clean_setField A k _ hcA hc.1.2)
              (noArr_setField A k _ hnA hna.1) hdisj1,
            setField_append A k _ hAk, append_cons_mid]
      | null =>
          rw [show pathPairsF (JsonFields.cons k (Json.null) tl)
              = [([k], Json.null)] ++ pathPairsF tl from rfl]
          simp only [noEmptyFields, Bool.and_eq_true, Bool.true_and] at hne
          have hdisj1 : ∀ k', tl.hasKey k' = true →
              (A.setField k Json.null).hasKey k' = false := by
            intro k' hk'
            rw [hasKey_setField_ne A k k' _ (hkeytl k' hk')]
            exact hdisj k' (by simp [JsonFields.hasKey, hk'])
          rw [insertSegPairs_append, insertSegPairs_single A k _ hcA hk,
            insertSegPairs_main tl (A.setField k _) hc.2 hdf.2 hne.2 hna.2
              (clean_setField A k _ hcA hc.1.2)
              (noArr_setField A k _ hnA hna.1) hdisj1,
            setField_append A k _ hAk, append_cons_mid]
      | undef =>
          exfalso
          have := hc.1.2
          simp [isJsonValue] at this
      | hole =>
          exfalso
          have := hc.1.2
          simp [isJsonValue] at this
      | arr es ps =>
          exfalso
          have := hna.1
          simp [noArrDoc] at this

/-- The document `{"a":[1,2],"b":{"c":"x"}}`: an array leaf the concrete
round-trip conjunct exercises. -/
def c5arrleaf : Json :=
  ob [("a", .arr (els [.num 1, .num 2]) .nil), ("b", ob [("c", .str "x")])]

/-- C5 (amended): the flatten/unflatten round trip is the identity on
parsed documents whose keys are dot-free and nonempty, whose object
values are all nonempty, and which contain no arrays — and it also holds
on the concrete array-leaf document `{"a":[1,2],"b":{"c":"x"}}` (arrays
are flattened as leaves).  The companion counterexample shows the
hypotheses are needed: an empty object value is dropped by the round trip
and a dotted key reshapes the tree. -/
theorem C5_round_trip_amended :
    unflattenPairs (flattenDoc c5arrleaf) = c5arrleaf ∧
    ∀ F : JsonFields,
      isJsonValue (.obj F) = true → dotFreeDoc (.obj F) = true →
      noEmptyObjValues (.obj F) = true → noArrDoc (.obj F) = true →
      keysNeDoc (.obj F) = true →
      unflattenPairs (flattenDoc (.obj F)) = .obj F := by
  refine ⟨by decide, ?_⟩
  intro F hc hdf hne hna hkne
  rw [flattenDoc_pairs F hc hdf hna hkne]
  have hfold : unflattenPairs ((pathPairsF F).map fun p => (joinDots p.1, p.2))
      = insertSegPairs (.obj .nil) (pathPairsF F) := by
    unfold unflattenPairs insertSegPairs
    rw [List.foldl_map]
  rw [hfold, insertSegPairs_main F .nil hc hdf hne hna rfl rfl
    (fun _ _ => rfl)]
  rfl

/-- C5 amended, applied concretely: the round trip restores
`{"a":{"b":"x"},"c":2}`. -/
theorem C5_round_trip_amended_witness :
    unflattenPairs (flattenDoc
        (ob [("a", ob [("b", Json.str "x")]), ("c", Json.num 2)]))
      = ob [("a", ob [("b", Json.str "x")]), ("c", Json.num 2)] :=
  C5_round_trip_amended.2
    (fds [("a", ob [("b", Json.str "x")]), ("c", Json.num 2)])
    (by decide) (by decide) (by decide) (by decide) (by decide)

/-- C9 amended, applied concretely: deleting `a.b` from `{"a":"y"}` is an
error-free no-op, and deleting `a.b` from `{"a":{"b":"x"}}` removes the
leaf. -/
theorem C9_delete_amended_witness :
    deleteNestedValue (ob [("a", Json.str "y")]) "a.b"
        = .ok (ob [("a", Json.str "y")]) ∧
    ∃ r : JsonFields,
      deleteNestedValue c9doc "a.b" = .ok (.obj r) ∧
      getNestedValue (.obj r) "a.b" = none := by
  refine ⟨C9_delete_amended.2.1 (fds [("a", Json.str "y")]) "a.b"
    (by decide) (by decide), ?_⟩
  obtain ⟨r, h1, h2, _⟩ := C9_delete_amended.2.2
    (fds [("a", ob [("b", Json.str "x")])]) "a.b" (by decide) (by decide)
  exact ⟨r, h1, h2⟩

end I18nMcp
